import Mathlib

/-!
Verification of the html-helper library (src/index.mjs): a bidirectional
HTML ⇄ JSON-tree codec with traversal, predicate search and in-place
mutation operations.  The JavaScript source is shallowly embedded here:

* a canonical tree node (`JNode`) is either a bare string (text) or an
  element record; the JS fields `attribs` and `children` may be absent,
  which the embedding models with `Option` (JS `undefined` becomes `none`);
* JS functions become pure Lean functions; in-place mutation becomes a
  function returning the new tree; a JS `TypeError` (e.g. calling `push`
  on an `undefined` children field) becomes an `Option` result of `none`;
* JS truthiness is translated explicitly: an empty string and `undefined`
  are falsy, so e.g. `if (!node) return` skips both `null` roots and
  empty-string text nodes;
* the external parse adapter (`htmlparser2.parseDocument`) is not part of
  the repository; it is modelled from the spec in a later section.
-/

namespace Html

/-- Canonical tree node (spec §3): a child is either a bare string (text
node) or an element `{name, attribs, children}`; `attribs`/`children` may be
absent on hand-built nodes, hence the `Option`s. -/
inductive JNode where
  | text (s : String)
  | elem (name : String) (attribs : Option (List (String × String))) (children : Option (List JNode))

/-- Accessor for the JS field read `node.name`: a string has no `name`
field (JS `undefined`). -/
def JNode.nameOf : JNode → Option String
  | .text _ => none
  | .elem n _ _ => some n

/-- Accessor for the JS field read `node.attribs`. -/
def JNode.attribsOf : JNode → Option (List (String × String))
  | .text _ => none
  | .elem _ a _ => a

/-- Accessor for the JS field read `node.children`. -/
def JNode.childrenOf : JNode → Option (List JNode)
  | .text _ => none
  | .elem _ _ c => c

/-- Polymorphic argument shape accepted by `traverse`, `hasNode` and
`removeNodes`: `null`/`undefined`, an array of nodes, or a single node. -/
inductive NodeInput where
  | null
  | many (ns : List JNode)
  | one (n : JNode)

/-- Normalized node view handed to user predicates (src lines 6–21,
`getNodeProps`). -/
structure NodeView where
  name : Option String
  attribs : Option (List (String × String))
  content : Option String
deriving DecidableEq

/-- Embedding of `getNodeProps` (src lines 6–21): for a string node, `name`
and `attribs` are null and `content` is the string; for an element,
`content` is the single child when `children` has length one and that child
is a string, else null. -/
def getNodeProps : JNode → NodeView
  | .text s => ⟨none, none, some s⟩
  | .elem n a (some [JNode.text s]) => ⟨some n, a, some s⟩
  | .elem n a c => ⟨some n, a, (fun _ => none) c⟩

section Traverse

/-!
Embedding of `traverse` (src lines 102–115).  The JS callback is effectful;
the embedding runs the same recursion threading an accumulator through the
callback, so any fold over the visit sequence can be expressed.  Note the
guard `if (!node) return;` in the source: it skips `null` and also an
empty-string text node (falsy in JS), so such a node is never visited.
-/

variable {α : Type}

mutual

/-- Single-node case of `traverse`: guard, callback, then recurse into
`node.children?` (absent children means no descent). -/
def travGo (g : α → JNode → α) : JNode → α → α
  | .text s, acc => if s = "" then acc else g acc (.text s)
  | .elem n a none, acc => g acc (.elem n a none)
  | .elem n a (some cs), acc => travList g cs (g acc (.elem n a (some cs)))

/-- Children loop of `traverse` (`forEach`). -/
def travList (g : α → JNode → α) : List JNode → α → α
  | [], acc => acc
  | c :: cs, acc => travList g cs (travGo g c acc)

end

/-- Embedding of `traverse` over the three accepted input shapes. -/
def traverseRun (g : α → JNode → α) : NodeInput → α → α
  | .null, acc => acc
  | .many ns, acc => travList g ns acc
  | .one n, acc => travGo g n acc

/-- The sequence of nodes passed to the callback by `traverse`, in call
order. -/
def traverseVisits (input : NodeInput) : List JNode :=
  traverseRun (fun acc n => acc ++ [n]) input []

end Traverse

mutual

/-- Specification-side pre-order visit list of a single node: the node
itself, then the visit lists of its children left to right; an empty-string
text node contributes nothing (the source's falsy-guard behaviour). -/
def preVisits : JNode → List JNode
  | .text s => if s = "" then [] else [.text s]
  | .elem n a none => [.elem n a none]
  | .elem n a (some cs) => .elem n a (some cs) :: preVisitsList cs

/-- Pre-order visit lists of a list of siblings, concatenated in order. -/
def preVisitsList : List JNode → List JNode
  | [] => []
  | c :: cs => preVisits c ++ preVisitsList cs

end

/-! ### Predicate search (src lines 195–208, `hasNode`)

The source recursion does NOT use `traverse`: it short-circuits.  The
`if (!node) return false` guard again skips empty-string text nodes. -/
mutual

/-- Single-node case of `hasNode`. -/
def hasNodeGo (p : NodeView → Bool) : JNode → Bool
  | .text s => if s = "" then false else p (getNodeProps (.text s))
  | .elem n a none => p (getNodeProps (.elem n a none))
  | .elem n a (some cs) => p (getNodeProps (.elem n a (some cs))) || hasNodeList p cs

/-- Children loop of `hasNode` (`Array.prototype.some`). -/
def hasNodeList (p : NodeView → Bool) : List JNode → Bool
  | [] => false
  | c :: cs => hasNodeGo p c || hasNodeList p cs

end

/-- Embedding of `hasNode` over the three accepted input shapes. -/
def hasNode (p : NodeView → Bool) : NodeInput → Bool
  | .null => false
  | .many ns => hasNodeList p ns
  | .one n => hasNodeGo p n

/-! ### Node removal (src lines 155–175, `removeNodes`)

The source filters `children` by the predicate applied to each child's
NodeView, writes the filtered list back, then recurses into the survivors
only.  The root node itself is never tested. -/
mutual

/-- Single-node case of `removeNodes`: strings and children-less elements
are untouched (`if (node.children)` fails on `undefined`). -/
def removeGo (p : NodeView → Bool) : JNode → JNode
  | .text s => .text s
  | .elem n a none => .elem n a none
  | .elem n a (some cs) => .elem n a (some (removeKept p cs))

/-- Filter-then-recurse pass over a children list: a child whose view
satisfies `p` is dropped (its subtree never processed); a surviving child
is recursively pruned. -/
def removeKept (p : NodeView → Bool) : List JNode → List JNode
  | [] => []
  | c :: cs =>
      if p (getNodeProps c) then removeKept p cs
      else removeGo p c :: removeKept p cs

end

/-- Embedding of `removeNodes` over the three accepted input shapes. -/
def removeNodes (p : NodeView → Bool) : NodeInput → NodeInput
  | .null => .null
  | .many ns => .many (ns.map (removeGo p))
  | .one n => .one (removeGo p n)

/-! ### Title rewriting (src lines 177–193, `updateTitle`) -/
mutual

/-- Single-node case of `updateTitle`: a node named `title` has its
children replaced wholesale by the one-string list (and the recursion
stops there); otherwise recurse into the children if present. -/
def updateTitleGo (s : String) : JNode → JNode
  | .text t => .text t
  | .elem n a none => if n = "title" then .elem n a (some [.text s]) else .elem n a none
  | .elem n a (some cs) =>
      if n = "title" then .elem n a (some [.text s])
      else .elem n a (some (updateTitleList s cs))

/-- Children loop of `updateTitle`. -/
def updateTitleList (s : String) : List JNode → List JNode
  | [] => []
  | c :: cs => updateTitleGo s c :: updateTitleList s cs

end

/-! ### Serialisation (src lines 41–61, `jsonToHtml`) -/
/-- Fixed void-element list (src line 4, `SELF_CLOSING_TAGS`). -/
def SELF_CLOSING_TAGS : List String :=
  ["meta", "base", "link", "img", "br", "hr", "input", "area", "source"]

/-- Embedding of `Array.prototype.join(' ')`. -/
def joinSpace : List String → String
  | [] => ""
  | [x] => x
  | x :: y :: xs => x ++ " " ++ joinSpace (y :: xs)

/-- Attribute string: `key="value"` pairs joined by single spaces, in
mapping iteration order (src lines 48–50). -/
def attrStr (ats : List (String × String)) : String :=
  joinSpace (ats.map (fun kv => kv.1 ++ "=\x22" ++ kv.2 ++ "\x22"))

/-- Open tag for the non-self-closing form; no space when the attribute
string is empty (JS truthiness of `attrStr`). -/
def openTagStr (name astr : String) : String :=
  if astr = "" then "<" ++ name ++ ">" else "<" ++ name ++ " " ++ astr ++ ">"

/-- Self-closing form with the space before the slash (src line 55). -/
def selfCloseStr (name astr : String) : String :=
  if astr = "" then "<" ++ name ++ " />" else "<" ++ name ++ " " ++ astr ++ " />"

mutual

/-- Embedding of `jsonToHtml`: strings serialize verbatim (no escaping);
a void-named element with zero children self-closes; otherwise open tag,
serialized children, explicit closing tag. -/
def jsonToHtml : JNode → String
  | .text s => s
  | .elem name a none =>
      if name ∈ SELF_CLOSING_TAGS then selfCloseStr name (attrStr (a.getD []))
      else openTagStr name (attrStr (a.getD [])) ++ "</" ++ name ++ ">"
  | .elem name a (some []) =>
      if name ∈ SELF_CLOSING_TAGS then selfCloseStr name (attrStr (a.getD []))
      else openTagStr name (attrStr (a.getD [])) ++ "</" ++ name ++ ">"
  | .elem name a (some (c :: cs)) =>
      openTagStr name (attrStr (a.getD [])) ++ jsonListToHtml (c :: cs) ++ "</" ++ name ++ ">"

/-- Children concatenation of `jsonToHtml` (`map(jsonToHtml).join('')`). -/
def jsonListToHtml : List JNode → String
  | [] => ""
  | c :: cs => jsonToHtml c ++ jsonListToHtml cs

end

/-! ### Head-ensuring machinery (src lines 63–78, `ensureHeadNode`)

The source finds the first child named `head`; if absent, it constructs a
fresh one and splices it in front of the first child named `body` (or at
index 0), provided `root.children` exists.  The caller then mutates the
returned head in place; the embedding passes that mutation as `f` and
re-seats the result.  `f` returning `none` models a JS `TypeError` (e.g.
`children.push` on `undefined`). -/
/-- First split of a list at the first element satisfying `p`:
`some (before, hit, after)`, or `none`. -/
def findFirstSplit (p : JNode → Bool) : List JNode → Option (List JNode × JNode × List JNode)
  | [] => none
  | c :: cs =>
      if p c then some ([], c, cs)
      else match findFirstSplit p cs with
        | some (pre, x, post) => some (c :: pre, x, post)
        | none => none

/-- JS test `n.name === nm` (false for a string child, whose `name` is
`undefined`). -/
def isNamed (nm : String) (n : JNode) : Bool := n.nameOf == some nm

/-- The fresh head node constructed by `ensureHeadNode`. -/
def freshHead : JNode := .elem "head" (some []) (some [])

/-- Embedding of `ensureHeadNode` followed by an in-place mutation `f` of
the returned head node.  A root without a `children` field gets a fresh
(possibly mutated) head that is never attached, so the root is returned
unchanged — exactly the source's `root.children?.splice` no-op. -/
def withEnsuredHead (f : JNode → Option JNode) : JNode → Option JNode
  | .text s => (f freshHead).map (fun _ => .text s)
  | .elem n a none => (f freshHead).map (fun _ => .elem n a none)
  | .elem n a (some cs) =>
      match findFirstSplit (isNamed "head") cs with
      | some (pre, h, post) => (f h).map (fun h' => .elem n a (some (pre ++ h' :: post)))
      | none =>
          match findFirstSplit (isNamed "body") cs with
          | some (pre, b, post) =>
              (f freshHead).map (fun h' => .elem n a (some (pre ++ h' :: b :: post)))
          | none => (f freshHead).map (fun h' => .elem n a (some (h' :: cs)))

/-- Embedding of `ensureHeadNode` as a root transformer (no extra mutation
of the head). -/
def ensureHead (root : JNode) : Option JNode := withEnsuredHead some root

/-- JS `headNode.children.push(x)`; `none` models the `TypeError` when the
children field is absent (or the target is a string). -/
def pushChild (x : JNode) : JNode → Option JNode
  | .elem n a (some cs) => some (.elem n a (some (cs ++ [x])))
  | _ => none

/-- JS `headNode.children.unshift(x)`; `none` as in `pushChild`. -/
def unshiftChild (x : JNode) : JNode → Option JNode
  | .elem n a (some cs) => some (.elem n a (some (x :: cs)))
  | _ => none

/-! ### Mutation operations (src lines 90–100, 139–153, 210–278) -/
/-- The title node constructed by `setTitle`. -/
def titleNode (content : String) : JNode := .elem "title" (some []) (some [.text content])

/-- Embedding of `setTitle` (src lines 210–224): rewrite every title if one
exists anywhere, else unshift a fresh title into the ensured head. -/
def setTitle (content : String) (root : JNode) : Option JNode :=
  if hasNodeGo (fun d => d.name == some "title") root then
    some (updateTitleGo content root)
  else
    withEnsuredHead (unshiftChild (titleNode content)) root

/-- Embedding of `insertInlineScript` (src lines 90–100). -/
def insertInlineScript (scriptText : String) (root : JNode) : Option JNode :=
  withEnsuredHead (pushChild (.elem "script" (some []) (some [.text scriptText]))) root

/-- JS object spread `{...base, ...extra}` on attribute records: existing
keys keep their position but take the overriding value; new keys are
appended in order. -/
def overrideWith (extra base : List (String × String)) : List (String × String) :=
  (base.map (fun kv => match extra.lookup kv.1 with
    | some v => (kv.1, v)
    | none => kv))
  ++ extra.filter (fun kv => (base.lookup kv.1).isNone)

/-- The link node constructed by `insertLink` (src lines 142–150):
`{rel, href, ...additionalAttribs}`. -/
def linkNode (href rel : String) (extra : List (String × String)) : JNode :=
  .elem "link" (some (overrideWith extra [("rel", rel), ("href", href)])) (some [])

/-- Embedding of `insertLink` (src lines 139–153). -/
def insertLink (href rel : String) (extra : List (String × String)) (root : JNode) :
    Option JNode :=
  withEnsuredHead (pushChild (linkNode href rel extra)) root

/-- ASCII lowercase of a character (embedding of `String.prototype.toLowerCase`
for the ASCII range that the relevant comparisons use). -/
def lowerChar (c : Char) : Char :=
  if 'A' ≤ c ∧ c ≤ 'Z' then Char.ofNat (c.toNat + 32) else c

/-- ASCII lowercase of a string. -/
def lowerStr (s : String) : String := (s.data.map lowerChar).asString

/-- Bool test that `seq` occurs at the front of `cs`. -/
def leadsWith : List Char → List Char → Bool
  | [], _ => true
  | _ :: _, [] => false
  | a :: as, b :: bs => a = b && leadsWith as bs

/-- First occurrence split: `splitOnSeq seq cs = some (before, after)` when
`cs = before ++ seq ++ after` at the first occurrence of `seq`, else
`none`. -/
def splitOnSeq (seq : List Char) : List Char → Option (List Char × List Char)
  | [] => if leadsWith seq [] then some ([], []) else none
  | c :: rest =>
      if leadsWith seq (c :: rest) then some ([], (c :: rest).drop seq.length)
      else match splitOnSeq seq rest with
        | some (b, a) => some (c :: b, a)
        | none => none

/-- Embedding of `String.prototype.includes`. -/
def containsSeq (seq l : List Char) : Bool := (splitOnSeq seq l).isSome

/-- The charset-signal predicate of `setCharset` (src lines 227–239): a
`meta` whose `charset` attribute is truthy (present AND non-empty), or a
`content-type` http-equiv whose content mentions `charset`, or a `name`
attribute equal to `charset` (both case-insensitively). -/
def charsetSignal (v : NodeView) : Bool :=
  v.name == some "meta" &&
  (match v.attribs with
   | none => false
   | some ats =>
       (match ats.lookup "charset" with
        | some c => c != ""
        | none => false)
       || ((ats.lookup "http-equiv").map lowerStr == some "content-type"
            && ((ats.lookup "content").map
                  (fun ct => containsSeq "charset".data (lowerStr ct).data)).getD false)
       || ((ats.lookup "name").map lowerStr == some "charset"))

/-- The meta node constructed by `setCharset`. -/
def metaCharsetNode (charset : String) : JNode :=
  .elem "meta" (some [("charset", charset)]) (some [])

/-- Embedding of `setCharset` (src lines 226–256). -/
def setCharset (charset : String) (root : JNode) : Option JNode :=
  if hasNodeGo charsetSignal root then some root
  else withEnsuredHead (unshiftChild (metaCharsetNode charset)) root

/-- The viewport predicate of `setViewport` (src lines 259–261):
`node.name === 'meta' && node.attribs?.name === 'viewport'`. -/
def viewportSignal (v : NodeView) : Bool :=
  v.name == some "meta" && ((v.attribs.getD []).lookup "name" == some "viewport")

/-- The meta node constructed by `setViewport`. -/
def metaViewportNode (content : String) : JNode :=
  .elem "meta" (some [("name", "viewport"), ("content", content)]) (some [])

/-- Embedding of `setViewport` (src lines 258–278): append (not prepend). -/
def setViewport (content : String) (root : JNode) : Option JNode :=
  if hasNodeGo viewportSignal root then some root
  else withEnsuredHead (pushChild (metaViewportNode content)) root

/-! ### Document skeleton builder (src lines 280–317, `createHtmlDocument`) -/
/-- Options record of `createHtmlDocument` with the source defaults. -/
structure DocOptions where
  lang : Option String := none
  charset : String := "utf-8"
  viewport : String := "width=device-width, initial-scale=1.0"

/-- Embedding of `createHtmlDocument`: `...lang ? {lang} : {}` spreads the
lang attribute only when it is present and truthy (non-empty). -/
def createHtmlDocument (title : String) (opts : DocOptions) : JNode :=
  .elem "html"
    (some (match opts.lang with
      | some l => if l = "" then [] else [("lang", l)]
      | none => []))
    (some
      [ .elem "head" (some [])
          (some
            [ .elem "meta" (some [("charset", opts.charset)]) (some [])
            , .elem "meta" (some [("name", "viewport"), ("content", opts.viewport)]) (some [])
            , .elem "title" (some []) (some [.text title]) ])
      , .elem "body" (some []) (some []) ])

/-! ### Resource extraction (src lines 117–137, `extractAllResources`) -/
/-- Fixed resource-attribute list (src line 3, `RESOURCE_ATTRS`). -/
def RESOURCE_ATTRS : List String := ["src", "href", "data", "action"]

/-- One record of `extractAllResources`; the `attr` field embeds the JS
record field named `attribute` (a reserved word in Lean). -/
structure Resource where
  name : String
  attr : String
  value : String
deriving DecidableEq

/-- Records pushed by the `extractAllResources` callback for one visited
node: nothing when `node.attribs` is absent (in particular for strings);
otherwise one record per resource attribute present with a truthy
(non-empty) value, in the fixed check order. -/
def nodeResources : JNode → List Resource
  | .text _ => []
  | .elem _ none _ => []
  | .elem nm (some ats) _ =>
      RESOURCE_ATTRS.filterMap (fun a =>
        match ats.lookup a with
        | some v => if v = "" then none else some ⟨nm, a, v⟩
        | none => none)

/-- Embedding of `extractAllResources`: a `traverse` run whose callback
appends the node's records to the accumulator. -/
def extractAllResources (input : NodeInput) : List Resource :=
  traverseRun (fun acc n => acc ++ nodeResources n) input []

/-! ### Raw parse nodes and `nodeToJson` (src lines 23–39)

A raw parse-tree node as produced by the external adapter (spec §6): a
`type` discriminator plus fields that exist only on some node kinds, all
modelled with `Option` (absent field = `none`). -/
/-- Raw parse node: `type`, `name`, `attribs`, `data`, `children`. -/
inductive RawNode where
  | mk (rtype : String) (rname : Option String)
      (rattribs : Option (List (String × String)))
      (rdata : Option String) (rchildren : Option (List RawNode))

/-- Accessor for the `type` field of a raw node. -/
def RawNode.rtypeOf : RawNode → String
  | .mk t _ _ _ _ => t

/-- Accessor for the `name` field of a raw node. -/
def RawNode.rnameOf : RawNode → Option String
  | .mk _ n _ _ _ => n

/-- Whitespace test used by the embedding of `String.prototype.trim`. -/
def wsChar (c : Char) : Bool := c.isWhitespace

/-- Embedding of `String.prototype.trim` at the character-list level:
drop whitespace from both ends. -/
def trimList (l : List Char) : List Char :=
  ((l.dropWhile wsChar).reverse.dropWhile wsChar).reverse

mutual

/-- Embedding of `nodeToJson` (src lines 23–39): a text node keeps its
`data` verbatim when the trimmed data is non-empty (JS truthiness of
`node.data.trim()`), else maps to nothing; a `tag`/`script`/`style` node
becomes an element with `attribs || {}` and the filtered recursively
mapped children; any other type maps to nothing. -/
def nodeToJson : RawNode → Option JNode
  | .mk ty nm ats dat none =>
      if ty = "text" then
        (if trimList (dat.getD "").data ≠ [] then some (.text (dat.getD "")) else none)
      else if ty = "tag" ∨ ty = "script" ∨ ty = "style" then
        some (.elem (nm.getD "") (some (ats.getD [])) (some []))
      else none
  | .mk ty nm ats dat (some cs) =>
      if ty = "text" then
        (if trimList (dat.getD "").data ≠ [] then some (.text (dat.getD "")) else none)
      else if ty = "tag" ∨ ty = "script" ∨ ty = "style" then
        some (.elem (nm.getD "") (some (ats.getD [])) (some (nodesToJson cs)))
      else none

/-- Children mapping of `nodeToJson`: `map(nodeToJson).filter(Boolean)`. -/
def nodesToJson : List RawNode → List JNode
  | [] => []
  | n :: ns =>
      match nodeToJson n with
      | some j => j :: nodesToJson ns
      | none => nodesToJson ns

end

/-- Embedding of `htmlToJson` (src lines 80–88) downstream of the parse
adapter: find the first top-level node named `html`; return null when
there is none, else convert it. -/
def htmlToJsonDom (dom : List RawNode) : Option JNode :=
  match dom.find? (fun n => n.rnameOf == some "html") with
  | none => none
  | some htmlNode => nodeToJson htmlNode

/-! ### Frame reasoning helpers (for the mutation operations) -/
mutual

/-- All nodes of a tree in pre-order, with no falsy-guard skipping (used
to state frame properties about whole trees). -/
def allNodes : JNode → List JNode
  | .text s => [.text s]
  | .elem n a none => [.elem n a none]
  | .elem n a (some cs) => .elem n a (some cs) :: allNodesList cs

/-- All nodes of a list of sibling trees. -/
def allNodesList : List JNode → List JNode
  | [] => []
  | c :: cs => allNodes c ++ allNodesList cs

end

mutual

/-- The `(name, attribs)` pairs of all element nodes of a tree, pre-order. -/
def elemPairs : JNode → List (String × Option (List (String × String)))
  | .text _ => []
  | .elem n a none => [(n, a)]
  | .elem n a (some cs) => (n, a) :: elemPairsList cs

/-- Element pairs of a list of sibling trees. -/
def elemPairsList : List JNode → List (String × Option (List (String × String)))
  | [] => []
  | c :: cs => elemPairs c ++ elemPairsList cs

end

/-- Count of `meta`-named nodes in a tree, exactly as the repository's test
helper `countMetaTags` does it (a `traverse` run with a counter). -/
def countMetaTags (t : JNode) : Nat :=
  traverseRun (fun acc n => if n.nameOf == some "meta" then acc + 1 else acc) (.one t) 0

/-! ### Spec-modelled parse adapter

The repository calls `htmlparser2.parseDocument`, an external collaborator
that is not part of this repository.  The spec (§2, §6) describes only its
interface: it turns HTML text into a raw parse tree of typed nodes with
`type` / `name` / `attribs` / `data` / `children` fields.  The definitions
below model that adapter as a standard single-pass tag/attribute/text
tokenizer with an open-element stack, raw-text handling for
`title`/`script`/`style` elements, implicit closing of still-open elements
at end of input, and a mismatched closing tag ignored.  Malformed-markup
recovery is explicitly out of the spec's scope, so this model is only as
authoritative as well-formed markup requires. -/
/-- Character allowed inside a tag name scan (stops at `>`, space, `/`). -/
def nameChar (c : Char) : Bool := c != '>' && c != ' ' && c != '/'

/-- Character allowed inside a closing-tag name scan. -/
def cnameChar (c : Char) : Bool := c != '>' && c != ' '

/-- Scanner mode for the attribute tokenizer. -/
inductive AMode where
  | top
  | key (k : List Char)
  | keyEq (k : List Char)
  | val (k : List Char) (v : List Char)

/-- Modelled from the spec: attribute scanning of the external parse
adapter — `key="value"` pairs separated by spaces, ended by `>` or the
self-closing `/>`. -/
def scanAttrsAux : List Char → AMode → List (String × String) →
    List (String × String) × Bool × List Char
  | [], _, acc => (acc, false, [])
  | c :: rest, .top, acc =>
      if c = '>' then (acc, false, rest)
      else if c = '/' then
        (match rest with
          | '>' :: rest2 => (acc, true, rest2)
          | _ => scanAttrsAux rest .top acc)
      else if c = ' ' then scanAttrsAux rest .top acc
      else scanAttrsAux rest (.key [c]) acc
  | c :: rest, .key k, acc =>
      if c = '=' then scanAttrsAux rest (.keyEq k) acc
      else if c = '>' then (acc ++ [(k.asString, "")], false, rest)
      else if c = ' ' then scanAttrsAux rest .top (acc ++ [(k.asString, "")])
      else scanAttrsAux rest (.key (k ++ [c])) acc
  | c :: rest, .keyEq k, acc =>
      if c = '\x22' then scanAttrsAux rest (.val k []) acc
      else if c = '>' then (acc ++ [(k.asString, "")], false, rest)
      else scanAttrsAux rest (.keyEq k) acc
  | c :: rest, .val k v, acc =>
      if c = '\x22' then scanAttrsAux rest .top (acc ++ [(k.asString, v.asString)])
      else scanAttrsAux rest (.val k (v ++ [c])) acc

/-- Attribute scan entry point. -/
def scanAttrs (cs : List Char) : List (String × String) × Bool × List Char :=
  scanAttrsAux cs .top []

/-- Open-element frame of the modelled parser. -/
structure PFrame where
  fname : String
  fattribs : List (String × String)
  facc : List RawNode

/-- Raw text node constructor of the modelled parser. -/
def mkText (s : String) : RawNode := .mk "text" none none (some s) none

/-- Node type assigned by the adapter: `script`/`style` keep their name as
type, every other element is a `tag`. -/
def typeFor (name : String) : String :=
  if name = "script" then "script" else if name = "style" then "style" else "tag"

/-- Raw element node constructor of the modelled parser. -/
def mkElem (name : String) (ats : List (String × String)) (children : List RawNode) : RawNode :=
  .mk (typeFor name) (some name) (some ats) none (some children)

/-- Children of a raw-text element: one text node, or none when empty. -/
def textChildren (dat : List Char) : List RawNode :=
  if dat.isEmpty then [] else [mkText dat.asString]

/-- Append a completed node to the innermost open frame. -/
def appendChild (x : RawNode) : List PFrame → List PFrame
  | [] => []
  | f :: fs => { f with facc := f.facc ++ [x] } :: fs

/-- Close a frame into its raw element node. -/
def closeFrame (f : PFrame) : RawNode := mkElem f.fname f.fattribs f.facc

/-- Handle a closing tag: pop the innermost frame when the name matches,
ignore the tag otherwise (the bottom frame is the document and is never
popped). -/
def closeTag (nm : String) : List PFrame → List PFrame
  | f :: g :: rest =>
      if f.fname = nm then appendChild (closeFrame f) (g :: rest) else f :: g :: rest
  | st => st

/-- Fold of `finalize` over the remaining outer frames. -/
def finalizeGo : PFrame → List PFrame → List RawNode
  | f, [] => f.facc
  | f, g :: rest => finalizeGo { g with facc := g.facc ++ [closeFrame f] } rest

/-- End of input: implicitly close every still-open element into its
parent; the bottom (document) frame's accumulated children are the
result. -/
def finalize : List PFrame → List RawNode
  | [] => []
  | f :: fs => finalizeGo f fs

/-- Drop everything up to and including the first occurrence of `c`. -/
def skipPast (c : Char) (l : List Char) : List Char :=
  (l.dropWhile (fun x => x != c)).drop 1

/-- Raw-text elements: their content is scanned as text up to the matching
closing tag. -/
def isRawText (name : String) : Bool :=
  name = "title" || name = "script" || name = "style"

/-- Modelled from the spec: the main loop of the external parse adapter
(`htmlparser2.parseDocument` is not part of the repository).  Fuel is the
remaining input length plus one; every step consumes at least one
character, so the fuel never runs out on the initial call. -/
def parseLoop : Nat → List Char → List PFrame → List RawNode
  | 0, _, stack => finalize stack
  | _ + 1, [], stack => finalize stack
  | fuel + 1, c :: cs, stack =>
      if c = '<' then
        if cs.head? = some '/' then
          parseLoop fuel (skipPast '>' cs.tail)
            (closeTag ((cs.tail.takeWhile cnameChar).asString) stack)
        else
          let nm := (cs.takeWhile nameChar).asString
          let sres := scanAttrs (cs.dropWhile nameChar)
          if nm = "" then parseLoop fuel cs stack
          else if sres.2.1 then
            parseLoop fuel sres.2.2 (appendChild (mkElem nm sres.1 []) stack)
          else if isRawText nm then
            match splitOnSeq ('<' :: '/' :: nm.data) sres.2.2 with
            | some (dat, after) =>
                parseLoop fuel (skipPast '>' after)
                  (appendChild (mkElem nm sres.1 (textChildren dat)) stack)
            | none =>
                parseLoop fuel []
                  (appendChild (mkElem nm sres.1 (textChildren sres.2.2)) stack)
          else parseLoop fuel sres.2.2 (⟨nm, sres.1, []⟩ :: stack)
      else
        parseLoop fuel ((c :: cs).dropWhile (fun x => x != '<'))
          (appendChild (mkText ((c :: cs).takeWhile (fun x => x != '<')).asString) stack)

/-- Modelled from the spec: the external parse adapter, returning the
top-level children of the parsed document. -/
def parseDocument (html : String) : List RawNode :=
  parseLoop (html.data.length + 1) html.data [⟨"", [], []⟩]

/-- Embedding of `htmlToJson` (src lines 80–88): parse, then convert,
with the parse adapter spec-modelled. -/
def htmlToJson (html : String) : Option JNode := htmlToJsonDom (parseDocument html)

/-! ### Round-trip bookkeeping (claim C3)

The serialized output of `jsonToHtml` on a `createHtmlDocument` skeleton,
split into the segments the parse trace consumes. -/
/-- Serialized document after the `<html …>` open tag. -/
def docSuffix (C V T : String) : List Char :=
  ("<head>").data ++
  (("<meta charset=\x22").data ++ (C.data ++ (("\x22 />").data ++ (("<meta name=\x22viewport\x22 content=\x22").data ++ (V.data ++ (("\x22 />").data ++ (("<title>").data ++ (T.data ++ (("</title>").data ++ (("</head>").data ++ (("<body>").data ++ (("</body>").data ++ (("</html>").data ++ (([] : List Char)))))))))))))))

/-- The raw charset meta node the modelled parser produces. -/
def metaCharsetRaw (C : String) : RawNode := mkElem "meta" [("charset", C)] []

/-- The raw viewport meta node the modelled parser produces. -/
def metaViewportRaw (V : String) : RawNode :=
  mkElem "meta" [("name", "viewport"), ("content", V)] []

/-- The raw title node the modelled parser produces. -/
def titleRaw (T : String) : RawNode := mkElem "title" [] (textChildren T.data)

/-- The raw head node the modelled parser produces. -/
def headRaw (C V T : String) : RawNode :=
  mkElem "head" [] [metaCharsetRaw C, metaViewportRaw V, titleRaw T]

/-- The raw body node the modelled parser produces. -/
def bodyRaw : RawNode := mkElem "body" [] []

/-- The raw html element the modelled parser produces on a serialized
document skeleton. -/
def htmlRaw (A : List (String × String)) (C V T : String) : RawNode :=
  mkElem "html" A [headRaw C V T, bodyRaw]

/-! ## Theorems -/

/-- Unfolding lemma: the fallthrough case of `getNodeProps`. -/
theorem getNodeProps_elem_other (n : String) (a : Option (List (String × String)))
    (c : Option (List JNode)) (h : ∀ s : String, c ≠ some [JNode.text s]) :
    getNodeProps (.elem n a c) = ⟨some n, a, none⟩ := by
  match c with
  | none => rfl
  | some [] => rfl
  | some [JNode.text s] => exact absurd rfl (h s)
  | some (JNode.elem _ _ _ :: _) => rfl
  | some (JNode.text _ :: _ :: _) => rfl

mutual

/-- The callback-threading traversal, specialised to collecting visited
nodes, equals the pre-order visit list (accumulator-generalised form). -/
theorem travGo_visits (n : JNode) (acc : List JNode) :
    travGo (fun a x => a ++ [x]) n acc = acc ++ preVisits n := by
  match n with
  | .text s =>
      by_cases h : s = "" <;> simp [travGo, preVisits, h]
  | .elem nm a none => simp [travGo, preVisits]
  | .elem nm a (some cs) =>
      rw [travGo, preVisits, travList_visits cs]
      simp

/-- List version of `travGo_visits`. -/
theorem travList_visits (cs : List JNode) (acc : List JNode) :
    travList (fun a x => a ++ [x]) cs acc = acc ++ preVisitsList cs := by
  match cs with
  | [] => simp [travList, preVisitsList]
  | c :: cs' =>
      rw [travList, travGo_visits c, travList_visits cs', preVisitsList]
      simp

end

/-- Visit-list characterisation of `traverse` on each input shape. -/
theorem traverseVisits_null : traverseVisits .null = [] := rfl

theorem traverseVisits_one (n : JNode) : traverseVisits (.one n) = preVisits n := by
  simpa [traverseVisits, traverseRun] using travGo_visits n []

theorem traverseVisits_many (ns : List JNode) :
    traverseVisits (.many ns) = preVisitsList ns := by
  simpa [traverseVisits, traverseRun] using travList_visits ns []

theorem preVisitsList_append (xs ys : List JNode) :
    preVisitsList (xs ++ ys) = preVisitsList xs ++ preVisitsList ys := by
  induction xs with
  | nil => simp [preVisitsList]
  | cons c cs ih => simp [preVisitsList, ih]

/-- An element node occurs in its own pre-order visit list. -/
theorem self_mem_preVisits_elem (n : String) (a : Option (List (String × String)))
    (c : Option (List JNode)) : JNode.elem n a c ∈ preVisits (.elem n a c) := by
  cases c <;> simp [preVisits]

/-- Visits of a child are visits of the parent element. -/
theorem mem_preVisits_of_mem_child (x c : JNode) (cs : List JNode)
    (hc : c ∈ cs) (hx : x ∈ preVisits c) (n : String)
    (a : Option (List (String × String))) :
    x ∈ preVisits (.elem n a (some cs)) := by
  rw [preVisits]
  refine List.mem_cons_of_mem _ ?_
  induction cs with
  | nil => cases hc
  | cons d ds ih =>
      rw [preVisitsList]
      rcases List.mem_cons.mp hc with h | h
      · subst h; exact List.mem_append_left _ hx
      · exact List.mem_append_right _ (ih h)

mutual

/-- The short-circuit search agrees with an existential over the traversal
visit list. -/
theorem hasNodeGo_iff (p : NodeView → Bool) (n : JNode) :
    hasNodeGo p n = true ↔ ∃ v ∈ preVisits n, p (getNodeProps v) = true := by
  match n with
  | .text s =>
      by_cases h : s = "" <;> simp [hasNodeGo, preVisits, h]
  | .elem nm a none => simp [hasNodeGo, preVisits]
  | .elem nm a (some cs) =>
      rw [hasNodeGo, preVisits]
      simp only [Bool.or_eq_true, hasNodeList_iff p cs, List.mem_cons]
      constructor
      · rintro (h | ⟨v, hv, hp⟩)
        · exact ⟨_, Or.inl rfl, h⟩
        · exact ⟨v, Or.inr hv, hp⟩
      · rintro ⟨v, hv | hv, hp⟩
        · subst hv; exact Or.inl hp
        · exact Or.inr ⟨v, hv, hp⟩

/-- List version of `hasNodeGo_iff`. -/
theorem hasNodeList_iff (p : NodeView → Bool) (cs : List JNode) :
    hasNodeList p cs = true ↔ ∃ v ∈ preVisitsList cs, p (getNodeProps v) = true := by
  match cs with
  | [] => simp [hasNodeList, preVisitsList]
  | c :: cs' =>
      rw [hasNodeList, preVisitsList]
      simp only [Bool.or_eq_true, hasNodeGo_iff p c, hasNodeList_iff p cs', List.mem_append]
      constructor
      · rintro (⟨v, hv, hp⟩ | ⟨v, hv, hp⟩)
        · exact ⟨v, Or.inl hv, hp⟩
        · exact ⟨v, Or.inr hv, hp⟩
      · rintro ⟨v, hv | hv, hp⟩
        · exact Or.inl ⟨v, hv, hp⟩
        · exact Or.inr ⟨v, hv, hp⟩

end

theorem hasNode_iff (p : NodeView → Bool) (input : NodeInput) :
    hasNode p input = true ↔ ∃ v ∈ traverseVisits input, p (getNodeProps v) = true := by
  match input with
  | .null => simp [hasNode, traverseVisits_null]
  | .many ns => rw [hasNode, traverseVisits_many]; exact hasNodeList_iff p ns
  | .one n => rw [hasNode, traverseVisits_one]; exact hasNodeGo_iff p n

/-- The fused pass equals the source's filter-then-forEach structure. -/
theorem removeKept_eq_filter_map (p : NodeView → Bool) (cs : List JNode) :
    removeKept p cs = (cs.filter (fun c => ! p (getNodeProps c))).map (removeGo p) := by
  induction cs with
  | nil => rfl
  | cons c cs ih =>
      rw [removeKept]
      by_cases h : p (getNodeProps c) = true
      · simp [List.filter, h, ih]
      · simp only [Bool.not_eq_true] at h
        simp [List.filter, h, ih]

mutual

/-- Every element named `title` in the rewritten tree has exactly the
children `[text s]`. -/
theorem updateTitleGo_titles (s : String) (n : JNode) :
    ∀ u ∈ preVisits (updateTitleGo s n), u.nameOf = some "title" →
      u.childrenOf = some [.text s] := by
  match n with
  | .text t =>
      intro u hu
      rw [updateTitleGo] at hu
      by_cases h : t = "" <;> simp [preVisits, h] at hu
      subst hu; intro h'; exact absurd h' (by simp [JNode.nameOf])
  | .elem nm a none =>
      intro u hu hname
      rw [updateTitleGo] at hu
      by_cases h : nm = "title"
      · simp only [if_pos h] at hu
        simp only [preVisits, preVisitsList] at hu
        rcases List.mem_cons.mp hu with h1 | h1
        · subst h1; simp [JNode.childrenOf]
        · simp only [preVisitsList, List.append_nil] at h1
          by_cases hs : s = ""
          · simp [preVisits, hs] at h1
          · simp only [preVisits, if_neg hs, List.mem_singleton] at h1
            subst h1
            simp [JNode.nameOf] at hname
      · simp only [if_neg h] at hu
        simp only [preVisits, List.mem_singleton] at hu
        subst hu
        simp [JNode.nameOf] at hname
        exact absurd hname h
  | .elem nm a (some cs) =>
      intro u hu hname
      rw [updateTitleGo] at hu
      by_cases h : nm = "title"
      · simp only [if_pos h] at hu
        simp only [preVisits, preVisitsList] at hu
        rcases List.mem_cons.mp hu with h1 | h1
        · subst h1; simp [JNode.childrenOf]
        · simp only [preVisitsList, List.append_nil] at h1
          by_cases hs : s = ""
          · simp [preVisits, hs] at h1
          · simp only [preVisits, if_neg hs, List.mem_singleton] at h1
            subst h1
            simp [JNode.nameOf] at hname
      · simp only [if_neg h] at hu
        simp only [preVisits] at hu
        rcases List.mem_cons.mp hu with h1 | h1
        · subst h1
          simp [JNode.nameOf] at hname
          exact absurd hname h
        · exact updateTitleList_titles s cs u h1 hname

/-- List version of `updateTitleGo_titles`. -/
theorem updateTitleList_titles (s : String) (cs : List JNode) :
    ∀ u ∈ preVisitsList (updateTitleList s cs), u.nameOf = some "title" →
      u.childrenOf = some [.text s] := by
  match cs with
  | [] => intro u hu; simp [updateTitleList, preVisitsList] at hu
  | c :: cs' =>
      intro u hu hname
      rw [updateTitleList, preVisitsList] at hu
      rcases List.mem_append.mp hu with h1 | h1
      · exact updateTitleGo_titles s c u h1 hname
      · exact updateTitleList_titles s cs' u h1 hname

end

theorem joinSpace_singleton (x : String) : joinSpace [x] = x := rfl

theorem joinSpace_cons_cons (x y : String) (xs : List String) :
    joinSpace (x :: y :: xs) = x ++ " " ++ joinSpace (y :: xs) := rfl

/-- A nonempty attribute mapping always renders to a nonempty attribute
string (each entry contains a quote character), matching the JS truthiness
test on `attrStr`. -/
theorem attrStr_ne_empty (k v : String) (rest : List (String × String)) :
    attrStr ((k, v) :: rest) ≠ "" := by
  intro h
  have hd := congrArg String.data h
  rw [attrStr, List.map_cons] at hd
  have hq : ("\x22" : String).data = ['\x22'] := rfl
  have he : ("" : String).data = ([] : List Char) := rfl
  have hs : (" " : String).data = [' '] := rfl
  match rest with
  | [] =>
      rw [List.map_nil, joinSpace_singleton] at hd
      simp only [String.data_append, he, hq, List.append_eq_nil] at hd
      exact absurd hd.2 (by simp)
  | p :: rest2 =>
      rw [List.map_cons, joinSpace_cons_cons] at hd
      simp only [String.data_append, he, hs, List.append_eq_nil] at hd
      exact absurd hd.1.2 (by simp)

/-! ### Generic fold form of `traverse` -/

mutual

/-- A `traverse` run whose callback appends a per-node contribution equals
the flat map of that contribution over the pre-order visit list. -/
theorem travGo_fold {γ : Type} (k : JNode → List γ) (n : JNode) (acc : List γ) :
    travGo (fun a x => a ++ k x) n acc = acc ++ (preVisits n).flatMap k := by
  match n with
  | .text s => by_cases h : s = "" <;> simp [travGo, preVisits, h]
  | .elem nm a none => simp [travGo, preVisits]
  | .elem nm a (some cs) =>
      rw [travGo, preVisits, travList_fold k cs]
      simp [List.append_assoc]

/-- List version of `travGo_fold`. -/
theorem travList_fold {γ : Type} (k : JNode → List γ) (cs : List JNode) (acc : List γ) :
    travList (fun a x => a ++ k x) cs acc = acc ++ (preVisitsList cs).flatMap k := by
  match cs with
  | [] => simp [travList, preVisitsList]
  | c :: cs' =>
      rw [travList, travGo_fold k c, travList_fold k cs', preVisitsList]
      simp [List.append_assoc]

end

theorem traverseRun_fold {γ : Type} (k : JNode → List γ) (input : NodeInput) :
    traverseRun (fun a x => a ++ k x) input [] = (traverseVisits input).flatMap k := by
  match input with
  | .null => simp [traverseRun, traverseVisits_null]
  | .many ns => rw [traverseRun, traverseVisits_many]; simpa using travList_fold k ns []
  | .one n => rw [traverseRun, traverseVisits_one]; simpa using travGo_fold k n []

/-! ### `findFirstSplit` characterisation -/

theorem findFirstSplit_eq_some (p : JNode → Bool) (cs : List JNode) :
    ∀ (pre post : List JNode) (x : JNode), findFirstSplit p cs = some (pre, x, post) →
      cs = pre ++ x :: post ∧ p x = true ∧ ∀ y ∈ pre, p y = false := by
  induction cs with
  | nil => intro pre post x h; simp [findFirstSplit] at h
  | cons c cs' ih =>
      intro pre post x h
      rw [findFirstSplit] at h
      by_cases hc : p c = true
      · rw [if_pos hc] at h
        injection h with h
        injection h with h1 h2
        injection h2 with h2 h3
        subst h1; subst h2; subst h3
        exact ⟨rfl, hc, by simp⟩
      · rw [if_neg hc] at h
        match hrec : findFirstSplit p cs' with
        | some (pre2, x2, post2) =>
            rw [hrec] at h
            injection h with h
            injection h with h1 h2
            injection h2 with h2 h3
            subst h2; subst h3
            obtain ⟨e1, e2, e3⟩ := ih pre2 post2 x2 hrec
            subst h1
            refine ⟨by simp [e1], e2, ?_⟩
            intro y hy
            rcases List.mem_cons.mp hy with hy | hy
            · subst hy; simpa using hc
            · exact e3 y hy
        | none => rw [hrec] at h; cases h

theorem findFirstSplit_of_split (p : JNode → Bool) (pre post : List JNode) (x : JNode)
    (hpre : ∀ y ∈ pre, p y = false) (hx : p x = true) :
    findFirstSplit p (pre ++ x :: post) = some (pre, x, post) := by
  induction pre with
  | nil => simp [findFirstSplit, hx]
  | cons c pre' ih =>
      have hc : p c = false := hpre c (by simp)
      rw [List.cons_append, findFirstSplit, if_neg (by simp [hc]),
        ih (fun y hy => hpre y (by simp [hy]))]

theorem findFirstSplit_eq_none (p : JNode → Bool) (cs : List JNode)
    (h : ∀ y ∈ cs, p y = false) : findFirstSplit p cs = none := by
  induction cs with
  | nil => rfl
  | cons c cs' ih =>
      rw [findFirstSplit, if_neg (by simp [h c (by simp)]),
        ih (fun y hy => h y (by simp [hy]))]

/-! ### `nodesToJson` and `trimList` -/

theorem nodesToJson_eq_filterMap (ns : List RawNode) :
    nodesToJson ns = ns.filterMap nodeToJson := by
  induction ns with
  | nil => rfl
  | cons n ns' ih =>
      match h : nodeToJson n with
      | some j => simp [nodesToJson, h, List.filterMap_cons, ih]
      | none => simp [nodesToJson, h, List.filterMap_cons, ih]

theorem trimList_eq_nil_iff (l : List Char) :
    trimList l = [] ↔ ∀ c ∈ l, wsChar c = true := by
  rw [trimList]
  rw [List.reverse_eq_nil_iff]
  rw [List.dropWhile_eq_nil_iff]
  constructor
  · intro h c hc
    have hsplit := List.takeWhile_append_dropWhile (p := wsChar) (l := l)
    rw [← hsplit] at hc
    rcases List.mem_append.mp hc with hc | hc
    · exact List.mem_takeWhile_imp hc
    · exact h c (by simpa using hc)
  · intro h c hc
    rw [List.mem_reverse] at hc
    exact h c ((List.dropWhile_sublist wsChar).subset hc)

theorem trimList_ne_nil_iff (l : List Char) :
    trimList l ≠ [] ↔ ∃ c ∈ l, wsChar c = false := by
  rw [ne_eq, trimList_eq_nil_iff]
  push_neg
  constructor
  · rintro ⟨c, hc, hw⟩; exact ⟨c, hc, by simpa using hw⟩
  · rintro ⟨c, hc, hw⟩; exact ⟨c, hc, by simp [hw]⟩

/-! ### Behaviour of `withEnsuredHead` -/

theorem withEnsuredHead_found (f : JNode → Option JNode) (n : String)
    (a : Option (List (String × String))) (pre post : List JNode) (h0 : JNode)
    (hpre : ∀ y ∈ pre, isNamed "head" y = false) (hh : isNamed "head" h0 = true) :
    withEnsuredHead f (.elem n a (some (pre ++ h0 :: post)))
      = (f h0).map (fun h' => .elem n a (some (pre ++ h' :: post))) := by
  rw [withEnsuredHead, findFirstSplit_of_split _ _ _ _ hpre hh]

theorem withEnsuredHead_noHead_body (f : JNode → Option JNode) (n : String)
    (a : Option (List (String × String))) (pre post : List JNode) (b : JNode)
    (hnh : ∀ y ∈ pre ++ b :: post, isNamed "head" y = false)
    (hpre : ∀ y ∈ pre, isNamed "body" y = false) (hb : isNamed "body" b = true) :
    withEnsuredHead f (.elem n a (some (pre ++ b :: post)))
      = (f freshHead).map (fun h' => .elem n a (some (pre ++ h' :: b :: post))) := by
  rw [withEnsuredHead, findFirstSplit_eq_none _ _ hnh,
    findFirstSplit_of_split _ _ _ _ hpre hb]

theorem withEnsuredHead_noHead_noBody (f : JNode → Option JNode) (n : String)
    (a : Option (List (String × String))) (cs : List JNode)
    (hnh : ∀ y ∈ cs, isNamed "head" y = false)
    (hnb : ∀ y ∈ cs, isNamed "body" y = false) :
    withEnsuredHead f (.elem n a (some cs))
      = (f freshHead).map (fun h' => .elem n a (some (h' :: cs))) := by
  rw [withEnsuredHead, findFirstSplit_eq_none _ _ hnh, findFirstSplit_eq_none _ _ hnb]

theorem unshiftChild_mem (x h h' : JNode) (hx : x ∈ preVisits x)
    (he : unshiftChild x h = some h') : x ∈ preVisits h' := by
  match h with
  | .text _ => cases he
  | .elem _ _ none => cases he
  | .elem hn ha (some hcs) =>
      injection he with he
      subst he
      exact mem_preVisits_of_mem_child x x (x :: hcs) (by simp) hx hn ha

theorem pushChild_mem (x h h' : JNode) (hx : x ∈ preVisits x)
    (he : pushChild x h = some h') : x ∈ preVisits h' := by
  match h with
  | .text _ => cases he
  | .elem _ _ none => cases he
  | .elem hn ha (some hcs) =>
      injection he with he
      subst he
      exact mem_preVisits_of_mem_child x x (hcs ++ [x]) (by simp) hx hn ha

/-! ### Frame lemmas: element `(name, attribs)` pairs -/

theorem elemPairsList_append (xs ys : List JNode) :
    elemPairsList (xs ++ ys) = elemPairsList xs ++ elemPairsList ys := by
  induction xs with
  | nil => simp [elemPairsList]
  | cons c cs ih => simp [elemPairsList, ih]

mutual

/-- Title rewriting never changes the `(name, attribs)` pair of any
surviving element (it only replaces children lists). -/
theorem updateTitleGo_pairs (s : String) (t : JNode) :
    ∀ pr ∈ elemPairs (updateTitleGo s t), pr ∈ elemPairs t := by
  match t with
  | .text u => intro pr hpr; rw [updateTitleGo] at hpr; exact hpr
  | .elem n a none =>
      intro pr hpr
      rw [updateTitleGo] at hpr
      by_cases h : n = "title"
      · rw [if_pos h] at hpr
        simpa [elemPairs, elemPairsList] using hpr
      · rw [if_neg h] at hpr
        exact hpr
  | .elem n a (some cs) =>
      intro pr hpr
      rw [updateTitleGo] at hpr
      by_cases h : n = "title"
      · rw [if_pos h] at hpr
        simp only [elemPairs, elemPairsList, List.mem_cons] at hpr ⊢
        rcases hpr with h1 | h1
        · exact Or.inl h1
        · simp [elemPairs] at h1
      · rw [if_neg h] at hpr
        simp only [elemPairs, List.mem_cons] at hpr ⊢
        rcases hpr with h1 | h1
        · exact Or.inl h1
        · exact Or.inr (updateTitleList_pairs s cs pr h1)

/-- List version of `updateTitleGo_pairs`. -/
theorem updateTitleList_pairs (s : String) (cs : List JNode) :
    ∀ pr ∈ elemPairsList (updateTitleList s cs), pr ∈ elemPairsList cs := by
  match cs with
  | [] => intro pr hpr; rw [updateTitleList] at hpr; exact hpr
  | c :: cs' =>
      intro pr hpr
      rw [updateTitleList, elemPairsList] at hpr
      rw [elemPairsList]
      rcases List.mem_append.mp hpr with h1 | h1
      · exact List.mem_append_left _ (updateTitleGo_pairs s c pr h1)
      · exact List.mem_append_right _ (updateTitleList_pairs s cs' pr h1)

end

mutual

/-- Pruning never changes the `(name, attribs)` pair of any surviving
element. -/
theorem removeGo_pairs (p : NodeView → Bool) (t : JNode) :
    ∀ pr ∈ elemPairs (removeGo p t), pr ∈ elemPairs t := by
  match t with
  | .text u => intro pr hpr; rw [removeGo] at hpr; exact hpr
  | .elem n a none => intro pr hpr; rw [removeGo] at hpr; exact hpr
  | .elem n a (some cs) =>
      intro pr hpr
      rw [removeGo] at hpr
      simp only [elemPairs, List.mem_cons] at hpr ⊢
      rcases hpr with h1 | h1
      · exact Or.inl h1
      · exact Or.inr (removeKept_pairs p cs pr h1)

/-- List version of `removeGo_pairs`. -/
theorem removeKept_pairs (p : NodeView → Bool) (cs : List JNode) :
    ∀ pr ∈ elemPairsList (removeKept p cs), pr ∈ elemPairsList cs := by
  match cs with
  | [] => intro pr hpr; rw [removeKept] at hpr; exact hpr
  | c :: cs' =>
      intro pr hpr
      rw [removeKept] at hpr
      rw [elemPairsList]
      by_cases h : p (getNodeProps c) = true
      · rw [if_pos h] at hpr
        exact List.mem_append_right _ (removeKept_pairs p cs' pr hpr)
      · rw [if_neg h] at hpr
        rw [elemPairsList] at hpr
        rcases List.mem_append.mp hpr with h1 | h1
        · exact List.mem_append_left _ (removeGo_pairs p c pr h1)
        · exact List.mem_append_right _ (removeKept_pairs p cs' pr h1)

end

theorem unshiftChild_pairs (x h h' : JNode) (he : unshiftChild x h = some h') :
    ∀ pr ∈ elemPairs h', pr ∈ elemPairs h ∨ pr ∈ elemPairs x := by
  match h with
  | .text _ => cases he
  | .elem _ _ none => cases he
  | .elem hn ha (some hcs) =>
      injection he with he
      subst he
      intro pr hpr
      simp only [elemPairs, elemPairsList, List.mem_cons, List.mem_append] at hpr ⊢
      rcases hpr with h1 | h1 | h1
      · exact Or.inl (Or.inl h1)
      · exact Or.inr h1
      · exact Or.inl (Or.inr h1)

theorem pushChild_pairs (x h h' : JNode) (he : pushChild x h = some h') :
    ∀ pr ∈ elemPairs h', pr ∈ elemPairs h ∨ pr ∈ elemPairs x := by
  match h with
  | .text _ => cases he
  | .elem _ _ none => cases he
  | .elem hn ha (some hcs) =>
      injection he with he
      subst he
      intro pr hpr
      simp only [elemPairs, elemPairsList_append, elemPairsList, List.mem_cons,
        List.mem_append] at hpr ⊢
      rcases hpr with h1 | h1 | h1 | h1
      · exact Or.inl (Or.inl h1)
      · exact Or.inl (Or.inr h1)
      · exact Or.inr h1
      · cases h1

/-- The root's `name` and `attribs` survive `withEnsuredHead` unchanged. -/
theorem withEnsuredHead_rootShape (f : JNode → Option JNode) (t t' : JNode)
    (h : withEnsuredHead f t = some t') :
    t'.nameOf = t.nameOf ∧ t'.attribsOf = t.attribsOf := by
  match t with
  | .text s =>
      rw [withEnsuredHead] at h
      match hfh : f freshHead with
      | none => rw [hfh] at h; cases h
      | some fh => rw [hfh] at h; injection h with h; subst h; exact ⟨rfl, rfl⟩
  | .elem n a none =>
      rw [withEnsuredHead] at h
      match hfh : f freshHead with
      | none => rw [hfh] at h; cases h
      | some fh => rw [hfh] at h; injection h with h; subst h; exact ⟨rfl, rfl⟩
  | .elem n a (some cs) =>
      rw [withEnsuredHead] at h
      match hsplit : findFirstSplit (isNamed "head") cs with
      | some (pre, h0, post) =>
          simp only [hsplit] at h
          match hfh : f h0 with
          | none => simp [hfh] at h
          | some fh =>
              simp only [hfh, Option.map_some', Option.some.injEq] at h
              subst h; exact ⟨rfl, rfl⟩
      | none =>
          simp only [hsplit] at h
          match hfh : f freshHead with
          | none =>
              match hsplit2 : findFirstSplit (isNamed "body") cs with
              | some (pre, b, post) => simp [hsplit2, hfh] at h
              | none => simp [hsplit2, hfh] at h
          | some fh =>
              match hsplit2 : findFirstSplit (isNamed "body") cs with
              | some (pre, b, post) =>
                  simp only [hsplit2, hfh, Option.map_some', Option.some.injEq] at h
                  subst h; exact ⟨rfl, rfl⟩
              | none =>
                  simp only [hsplit2, hfh, Option.map_some', Option.some.injEq] at h
                  subst h; exact ⟨rfl, rfl⟩

/-- Frame lemma for `withEnsuredHead`: if the head mutation only adds
element pairs from `P`, the whole operation only adds `("head", {})` and
pairs from `P`. -/
theorem withEnsuredHead_pairs (f : JNode → Option JNode)
    (P : List (String × Option (List (String × String))))
    (hf : ∀ h h', f h = some h' → ∀ pr ∈ elemPairs h', pr ∈ elemPairs h ∨ pr ∈ P)
    (t t' : JNode) (h : withEnsuredHead f t = some t') :
    ∀ pr ∈ elemPairs t', pr ∈ elemPairs t ∨ pr ∈ ("head", some []) :: P := by
  have hfresh : ∀ fh', f freshHead = some fh' →
      ∀ pr ∈ elemPairs fh', pr = ("head", some []) ∨ pr ∈ P := by
    intro fh' hfh pr hpr
    rcases hf freshHead fh' hfh pr hpr with h1 | h1
    · exact Or.inl (by simpa [freshHead, elemPairs, elemPairsList] using h1)
    · exact Or.inr h1
  match t with
  | .text s =>
      rw [withEnsuredHead] at h
      match hfh : f freshHead with
      | none => rw [hfh] at h; cases h
      | some fh =>
          rw [hfh] at h; injection h with h; subst h
          intro pr hpr; exact Or.inl hpr
  | .elem n a none =>
      rw [withEnsuredHead] at h
      match hfh : f freshHead with
      | none => rw [hfh] at h; cases h
      | some fh =>
          rw [hfh] at h; injection h with h; subst h
          intro pr hpr; exact Or.inl hpr
  | .elem n a (some cs) =>
      rw [withEnsuredHead] at h
      match hsplit : findFirstSplit (isNamed "head") cs with
      | some (pre, h0, post) =>
          simp only [hsplit] at h
          obtain ⟨hcs, -, -⟩ := findFirstSplit_eq_some _ _ _ _ _ hsplit
          match hfh : f h0 with
          | none => simp [hfh] at h
          | some fh =>
              simp only [hfh, Option.map_some', Option.some.injEq] at h
              subst h
              intro pr hpr
              subst hcs
              simp only [elemPairs, elemPairsList_append, elemPairsList, List.mem_cons,
                List.mem_append] at hpr ⊢
              rcases hpr with h1 | h1 | h1 | h1
              · exact Or.inl (Or.inl h1)
              · exact Or.inl (Or.inr (Or.inl h1))
              · rcases hf h0 fh hfh pr h1 with h2 | h2
                · exact Or.inl (Or.inr (Or.inr (Or.inl h2)))
                · exact Or.inr (Or.inr h2)
              · exact Or.inl (Or.inr (Or.inr (Or.inr h1)))
      | none =>
          simp only [hsplit] at h
          match hfh : f freshHead with
          | none =>
              match hsplit2 : findFirstSplit (isNamed "body") cs with
              | some (pre, b, post) => simp [hsplit2, hfh] at h
              | none => simp [hsplit2, hfh] at h
          | some fh =>
              have hfr := hfresh fh hfh
              match hsplit2 : findFirstSplit (isNamed "body") cs with
              | some (pre, b, post) =>
                  simp only [hsplit2, hfh, Option.map_some', Option.some.injEq] at h
                  subst h
                  obtain ⟨hcs, -, -⟩ := findFirstSplit_eq_some _ _ _ _ _ hsplit2
                  subst hcs
                  intro pr hpr
                  simp only [elemPairs, elemPairsList_append, elemPairsList, List.mem_cons,
                    List.mem_append] at hpr ⊢
                  rcases hpr with h1 | h1 | h1 | h1 | h1
                  · exact Or.inl (Or.inl h1)
                  · exact Or.inl (Or.inr (Or.inl h1))
                  · exact Or.inr (hfr pr h1)
                  · exact Or.inl (Or.inr (Or.inr (Or.inl h1)))
                  · exact Or.inl (Or.inr (Or.inr (Or.inr h1)))
              | none =>
                  simp only [hsplit2, hfh, Option.map_some', Option.some.injEq] at h
                  subst h
                  intro pr hpr
                  simp only [elemPairs, elemPairsList_append, elemPairsList, List.mem_cons,
                    List.mem_append] at hpr ⊢
                  rcases hpr with h1 | h1 | h1
                  · exact Or.inl (Or.inl h1)
                  · exact Or.inr (hfr pr h1)
                  · exact Or.inl (Or.inr h1)

/-- If the head mutation plants a node `x` into the head, then after
`withEnsuredHead` either the root was returned unchanged (missing
`children` field) or `x` occurs in the result's visit list. -/
theorem withEnsuredHead_insert_mem (f : JNode → Option JNode) (x : JNode)
    (hf : ∀ h h', f h = some h' → x ∈ preVisits h') (t t' : JNode)
    (h : withEnsuredHead f t = some t') :
    t' = t ∨ x ∈ preVisits t' := by
  match t with
  | .text s =>
      rw [withEnsuredHead] at h
      match hfh : f freshHead with
      | none => rw [hfh] at h; cases h
      | some fh => rw [hfh] at h; injection h with h; exact Or.inl h.symm
  | .elem n a none =>
      rw [withEnsuredHead] at h
      match hfh : f freshHead with
      | none => rw [hfh] at h; cases h
      | some fh => rw [hfh] at h; injection h with h; exact Or.inl h.symm
  | .elem n a (some cs) =>
      rw [withEnsuredHead] at h
      match hsplit : findFirstSplit (isNamed "head") cs with
      | some (pre, h0, post) =>
          simp only [hsplit] at h
          match hfh : f h0 with
          | none => simp [hfh] at h
          | some fh =>
              simp only [hfh, Option.map_some', Option.some.injEq] at h
              subst h
              exact Or.inr (mem_preVisits_of_mem_child x fh _ (by simp) (hf h0 fh hfh) n a)
      | none =>
          simp only [hsplit] at h
          match hfh : f freshHead with
          | none =>
              match hsplit2 : findFirstSplit (isNamed "body") cs with
              | some (pre, b, post) => simp [hsplit2, hfh] at h
              | none => simp [hsplit2, hfh] at h
          | some fh =>
              have hxf : x ∈ preVisits fh := hf freshHead fh hfh
              match hsplit2 : findFirstSplit (isNamed "body") cs with
              | some (pre, b, post) =>
                  simp only [hsplit2, hfh, Option.map_some', Option.some.injEq] at h
                  subst h
                  exact Or.inr (mem_preVisits_of_mem_child x fh _ (by simp) hxf n a)
              | none =>
                  simp only [hsplit2, hfh, Option.map_some', Option.some.injEq] at h
                  subst h
                  exact Or.inr (mem_preVisits_of_mem_child x fh _ (by simp) hxf n a)

/-! ### Root shape preservation of the pure tree rewrites -/

theorem updateTitleGo_rootShape (s : String) (t : JNode) :
    (updateTitleGo s t).nameOf = t.nameOf ∧ (updateTitleGo s t).attribsOf = t.attribsOf := by
  match t with
  | .text u => exact ⟨rfl, rfl⟩
  | .elem n a none =>
      by_cases h : n = "title" <;>
        simp [updateTitleGo, h, JNode.nameOf, JNode.attribsOf]
  | .elem n a (some cs) =>
      by_cases h : n = "title" <;>
        simp [updateTitleGo, h, JNode.nameOf, JNode.attribsOf]

theorem removeGo_rootShape (p : NodeView → Bool) (t : JNode) :
    (removeGo p t).nameOf = t.nameOf ∧ (removeGo p t).attribsOf = t.attribsOf := by
  match t with
  | .text u => exact ⟨rfl, rfl⟩
  | .elem n a none => exact ⟨rfl, rfl⟩
  | .elem n a (some cs) => exact ⟨rfl, rfl⟩

/-! ### The constructed meta nodes satisfy their own signals -/

theorem charsetSignal_meta (c : String) (hc : c ≠ "") :
    charsetSignal (getNodeProps (metaCharsetNode c)) = true := by
  have h1 : getNodeProps (metaCharsetNode c) = ⟨some "meta", some [("charset", c)], none⟩ := rfl
  rw [h1, charsetSignal]
  simp [List.lookup, hc]

theorem viewportSignal_meta (v : String) :
    viewportSignal (getNodeProps (metaViewportNode v)) = true := rfl

/-! ### Idempotence of the charset/viewport setters -/

theorem setCharset_noop (c : String) (t : JNode) (h : hasNodeGo charsetSignal t = true) :
    setCharset c t = some t := by
  rw [setCharset, if_pos h]

theorem setViewport_noop (v : String) (t : JNode) (h : hasNodeGo viewportSignal t = true) :
    setViewport v t = some t := by
  rw [setViewport, if_pos h]

theorem setCharset_second (c : String) (hc : c ≠ "") (t t' : JNode)
    (h : setCharset c t = some t') : setCharset c t' = some t' := by
  rw [setCharset] at h
  by_cases hs : hasNodeGo charsetSignal t = true
  · rw [if_pos hs] at h
    injection h with h
    subst h
    rw [setCharset, if_pos hs]
  · rw [if_neg hs] at h
    have hmemf : ∀ h0 h0', unshiftChild (metaCharsetNode c) h0 = some h0' →
        metaCharsetNode c ∈ preVisits h0' := by
      intro h0 h0' hfe
      exact unshiftChild_mem _ h0 h0'
        (self_mem_preVisits_elem "meta" (some [("charset", c)]) (some [])) hfe
    rcases withEnsuredHead_insert_mem _ (metaCharsetNode c) hmemf t t' h with he | hm
    · subst he
      rw [setCharset, if_neg hs]
      exact h
    · have hsig : hasNodeGo charsetSignal t' = true :=
        (hasNodeGo_iff _ _).mpr ⟨_, hm, charsetSignal_meta c hc⟩
      rw [setCharset, if_pos hsig]

theorem setViewport_second (v : String) (t t' : JNode)
    (h : setViewport v t = some t') : setViewport v t' = some t' := by
  rw [setViewport] at h
  by_cases hs : hasNodeGo viewportSignal t = true
  · rw [if_pos hs] at h
    injection h with h
    subst h
    rw [setViewport, if_pos hs]
  · rw [if_neg hs] at h
    have hmemf : ∀ h0 h0', pushChild (metaViewportNode v) h0 = some h0' →
        metaViewportNode v ∈ preVisits h0' := by
      intro h0 h0' hfe
      exact pushChild_mem _ h0 h0'
        (self_mem_preVisits_elem "meta" (some [("name", "viewport"), ("content", v)]) (some []))
        hfe
    rcases withEnsuredHead_insert_mem _ (metaViewportNode v) hmemf t t' h with he | hm
    · subst he
      rw [setViewport, if_neg hs]
      exact h
    · have hsig : hasNodeGo viewportSignal t' = true :=
        (hasNodeGo_iff _ _).mpr ⟨_, hm, viewportSignal_meta v⟩
      rw [setViewport, if_pos hsig]

theorem preVisitsList_eq_flatMap (ns : List JNode) :
    preVisitsList ns = ns.flatMap preVisits := by
  induction ns with
  | nil => simp [preVisitsList]
  | cons c cs ih => simp [preVisitsList, ih]

/-! ## Claim theorems -/

/-- C4 counterexample: the claim as stated says `traverse` invokes the
callback exactly once per node including string nodes, but on the
empty-string text node (falsy in JS, so caught by `if (!node) return`)
the callback is never invoked: the visit list is empty, not a singleton. -/
theorem claim4_counterexample :
    traverseVisits (NodeInput.one (JNode.text "")) = [] ∧
    ([] : List JNode).length ≠ [JNode.text ""].length :=
  ⟨rfl, by decide⟩

/-- C4 (amended): `traverse` walks depth-first pre-order — parent before
children, left to right — accepts a null root as a no-op, walks an array
of roots in order, visits every node exactly once before descending
(treating absent `children` as empty), EXCEPT that an empty-string text
node is skipped entirely (JS falsiness of `""`). -/
theorem claim4_traverse_preorder :
    (traverseVisits .null = []) ∧
    (∀ ns, traverseVisits (.many ns) = ns.flatMap (fun n => traverseVisits (.one n))) ∧
    (∀ s, s ≠ "" → traverseVisits (.one (.text s)) = [.text s]) ∧
    (traverseVisits (.one (.text "")) = []) ∧
    (∀ n a, traverseVisits (.one (.elem n a none)) = [.elem n a none]) ∧
    (∀ n a cs, traverseVisits (.one (.elem n a (some cs)))
        = .elem n a (some cs) :: cs.flatMap (fun c => traverseVisits (.one c))) := by
  refine ⟨rfl, ?_, ?_, rfl, ?_, ?_⟩
  · intro ns
    rw [traverseVisits_many, preVisitsList_eq_flatMap]
    exact List.flatMap_congr (fun n _ => (traverseVisits_one n).symm)
  · intro s hs
    rw [traverseVisits_one, preVisits, if_neg hs]
  · intro n a
    rw [traverseVisits_one, preVisits]
  · intro n a cs
    rw [traverseVisits_one, preVisits, preVisitsList_eq_flatMap]
    congr 1
    exact List.flatMap_congr (fun c _ => (traverseVisits_one c).symm)

/-- C4 witness: a non-empty string node is visited exactly once. -/
theorem claim4_witness :
    ("x" : String) ≠ "" ∧ traverseVisits (.one (.text "x")) = [.text "x"] :=
  ⟨by decide, claim4_traverse_preorder.2.2.1 "x" (by decide)⟩

/-- C5: `exists` (`hasNode`) is true iff some node of the traversal's
visit sequence satisfies the predicate on its NodeView; the NodeView of a
string is `{name: null, attribs: null, content: the string}`; an element's
`content` is the single string child exactly when there is exactly one
child and it is a string; `exists(null, p)` and `exists([], p)` are
false. -/
theorem claim5_exists_nodeview :
    (∀ (p : NodeView → Bool) input,
        hasNode p input = true ↔ ∃ v ∈ traverseVisits input, p (getNodeProps v) = true) ∧
    (∀ s, getNodeProps (.text s) = ⟨none, none, some s⟩) ∧
    (∀ n a s, getNodeProps (.elem n a (some [JNode.text s])) = ⟨some n, a, some s⟩) ∧
    (∀ n a c, (∀ s : String, c ≠ some [JNode.text s]) →
        getNodeProps (.elem n a c) = ⟨some n, a, none⟩) ∧
    (∀ p : NodeView → Bool, hasNode p .null = false) ∧
    (∀ p : NodeView → Bool, hasNode p (.many []) = false) := by
  refine ⟨hasNode_iff, fun s => rfl, fun n a s => rfl, getNodeProps_elem_other,
    fun p => rfl, fun p => rfl⟩

/-- C5 witness: the search agrees with the existential on a concrete tree
(two text children, so the element's content view is null, and the
predicate looking for content `"b"` still finds the text node itself). -/
theorem claim5_witness :
    (hasNode (fun v => v.content == some "b")
        (.one (.elem "p" (some []) (some [JNode.text "a", JNode.text "b"]))) = true) ∧
    (∀ s : String, (some [JNode.text "a", JNode.text "b"] : Option (List JNode))
        ≠ some [JNode.text s]) ∧
    getNodeProps (.elem "p" (some []) (some [JNode.text "a", JNode.text "b"]))
      = ⟨some "p", some [], none⟩ := by
  refine ⟨?_, fun s => by simp, claim5_exists_nodeview.2.2.2.1 "p" (some [])
    (some [JNode.text "a", JNode.text "b"]) (fun s => by simp)⟩
  exact (claim5_exists_nodeview.1 _ _).mpr ⟨JNode.text "b", by simp [traverseVisits_one,
    preVisits, preVisitsList], rfl⟩

/-- C2: a void-named element with zero children renders self-closed —
`<name />` with no attributes, `<name k="v" ... />` with attributes
(pairs joined by single spaces in iteration order, space before `/>`);
every other element, including a void-named one with children and an
empty non-void element, renders as open tag, serialized children
concatenation, explicit closing tag. -/
theorem claim2_selfclosing :
    (∀ name, name ∈ SELF_CLOSING_TAGS →
      (jsonToHtml (.elem name (some []) (some [])) = "<" ++ name ++ " />") ∧
      (jsonToHtml (.elem name none (some [])) = "<" ++ name ++ " />") ∧
      (∀ k v rest, jsonToHtml (.elem name (some ((k, v) :: rest)) (some []))
          = "<" ++ name ++ " " ++ attrStr ((k, v) :: rest) ++ " />")) ∧
    (∀ name a cs, name ∉ SELF_CLOSING_TAGS →
      jsonToHtml (.elem name a (some cs))
        = openTagStr name (attrStr (a.getD [])) ++ jsonListToHtml cs ++ "</" ++ name ++ ">") ∧
    (∀ name a c cs,
      jsonToHtml (.elem name a (some (c :: cs)))
        = openTagStr name (attrStr (a.getD [])) ++ jsonListToHtml (c :: cs) ++ "</" ++ name ++ ">") ∧
    (attrStr [] = "") ∧
    (∀ k v, attrStr [(k, v)] = k ++ "=\x22" ++ v ++ "\x22") ∧
    (∀ k v p rest, attrStr ((k, v) :: p :: rest)
        = k ++ "=\x22" ++ v ++ "\x22" ++ " " ++ attrStr (p :: rest)) := by
  refine ⟨?_, ?_, ?_, rfl, fun k v => rfl, fun k v p rest => rfl⟩
  · intro name hmem
    refine ⟨?_, ?_, ?_⟩
    · simp [jsonToHtml, hmem, attrStr, joinSpace, selfCloseStr]
    · simp [jsonToHtml, hmem, attrStr, joinSpace, selfCloseStr]
    · intro k v rest
      simp only [jsonToHtml, hmem, if_pos, Option.getD_some]
      rw [selfCloseStr, if_neg (attrStr_ne_empty k v rest)]
  · intro name a cs hmem
    match cs with
    | [] => simp [jsonToHtml, hmem, jsonListToHtml, String.append_empty]
    | c :: cs' => rw [jsonToHtml]
  · intro name a c cs
    rw [jsonToHtml]

/-- C2 witness: concrete renderings for a void tag with and without
attributes and a non-void empty element. -/
theorem claim2_witness :
    ("meta" ∈ SELF_CLOSING_TAGS) ∧
    jsonToHtml (.elem "meta" (some [("charset", "utf-8")]) (some []))
      = "<meta charset=\x22utf-8\x22 />" ∧
    jsonToHtml (.elem "meta" (some []) (some [])) = "<meta />" ∧
    ("div" ∉ SELF_CLOSING_TAGS) ∧
    jsonToHtml (.elem "div" (some []) (some [])) = "<div></div>" := by
  refine ⟨by decide, ?_, ?_, by decide, ?_⟩
  · rw [(claim2_selfclosing.1 "meta" (by decide)).2.2 "charset" "utf-8" []]
    decide
  · rw [(claim2_selfclosing.1 "meta" (by decide)).1]
    decide
  · rw [claim2_selfclosing.2.1 "div" (some []) [] (by decide)]
    decide

/-- C6: `prune` (`removeNodes`) filters every children list by the
predicate on the child's NodeView (computed before the child's own
subtree is pruned), recurses only into the surviving children, never
tests the root itself (its name/attribs always survive), accepts the
null/array/single polymorphism, and the spec's sibling example leaves
exactly the `keep-me` paragraph. -/
theorem claim6_prune :
    (∀ p : NodeView → Bool, removeNodes p .null = .null) ∧
    (∀ (p : NodeView → Bool) ns, removeNodes p (.many ns) = .many (ns.map (removeGo p))) ∧
    (∀ (p : NodeView → Bool) n, removeNodes p (.one n) = .one (removeGo p n)) ∧
    (∀ (p : NodeView → Bool) n a cs, removeGo p (.elem n a (some cs))
        = .elem n a (some ((cs.filter (fun c => ! p (getNodeProps c))).map (removeGo p)))) ∧
    (∀ (p : NodeView → Bool) t,
        (removeGo p t).nameOf = t.nameOf ∧ (removeGo p t).attribsOf = t.attribsOf) ∧
    (removeGo (fun v => (v.attribs.getD []).lookup "class" == some "remove-me")
        (.elem "div" (some []) (some
          [ .elem "p" (some [("class", "remove-me")]) (some [.text "text1"])
          , .elem "p" (some [("class", "keep-me")]) (some [.text "text2"])
          , .elem "span" (some [("class", "remove-me")]) (some [.text "text3"]) ]))
      = .elem "div" (some []) (some
          [ .elem "p" (some [("class", "keep-me")]) (some [.text "text2"]) ])) := by
  refine ⟨fun p => rfl, fun p ns => rfl, fun p n => rfl, ?_, removeGo_rootShape, rfl⟩
  intro p n a cs
  rw [removeGo, removeKept_eq_filter_map]

/-- C9: `extractAllResources` emits, in traversal pre-order and within a
node in the fixed order src, href, data, action, exactly one record per
element node and resource attribute present with a non-empty value
(absent `attribs` contributes nothing); shown both as the flat-map
characterisation of the traversal run and on the spec's four-resource
example. -/
theorem claim9_resources :
    (∀ input, extractAllResources input = (traverseVisits input).flatMap nodeResources) ∧
    (∀ nm ats ch, nodeResources (.elem nm (some ats) ch)
        = ["src", "href", "data", "action"].filterMap (fun a =>
            match ats.lookup a with
            | some v => if v = "" then none else some ⟨nm, a, v⟩
            | none => none)) ∧
    (∀ s, nodeResources (.text s) = []) ∧
    (∀ nm ch, nodeResources (.elem nm none ch) = []) ∧
    (extractAllResources (.one (.elem "html" (some []) (some
        [ .elem "head" (some []) (some
            [ .elem "link" (some [("rel", "stylesheet"), ("href", "/a.css")]) (some []) ])
        , .elem "body" (some []) (some
            [ .elem "img" (some [("src", "/b.jpg")]) (some [])
            , .elem "a" (some [("href", "/c.html")]) (some [.text "Link"])
            , .elem "script" (some [("src", "/d.js")]) (some []) ]) ])))
      = [ ⟨"link", "href", "/a.css"⟩, ⟨"img", "src", "/b.jpg"⟩
        , ⟨"a", "href", "/c.html"⟩, ⟨"script", "src", "/d.js"⟩ ]) := by
  refine ⟨?_, fun nm ats ch => rfl, fun s => rfl, fun nm ch => rfl, rfl⟩
  intro input
  exact traverseRun_fold nodeResources input

/-- C7: when a `title` node exists anywhere in the tree, `setTitle`
rewrites the children of every title element wholesale to `[text]`; when
none exists, it unshifts a fresh `{title, {}, [text]}` into the first
`head` child (index 0 of its children), creating `head` — placed
immediately before the first `body` child, else at index 0 of
`root.children` — when absent. -/
theorem claim7_setTitle :
    (∀ root text, hasNodeGo (fun d => d.name == some "title") root = true →
        setTitle text root = some (updateTitleGo text root) ∧
        ∀ u ∈ preVisits (updateTitleGo text root), u.nameOf = some "title" →
          u.childrenOf = some [.text text]) ∧
    (∀ n a pre post ha hcs text, (∀ y ∈ pre, isNamed "head" y = false) →
        hasNodeGo (fun d => d.name == some "title")
          (.elem n a (some (pre ++ .elem "head" ha (some hcs) :: post))) = false →
        setTitle text (.elem n a (some (pre ++ .elem "head" ha (some hcs) :: post)))
          = some (.elem n a (some
              (pre ++ .elem "head" ha (some (titleNode text :: hcs)) :: post)))) ∧
    (∀ n a pre post b text,
        (∀ y ∈ pre ++ b :: post, isNamed "head" y = false) →
        (∀ y ∈ pre, isNamed "body" y = false) → isNamed "body" b = true →
        hasNodeGo (fun d => d.name == some "title")
          (.elem n a (some (pre ++ b :: post))) = false →
        setTitle text (.elem n a (some (pre ++ b :: post)))
          = some (.elem n a (some
              (pre ++ .elem "head" (some []) (some [titleNode text]) :: b :: post)))) ∧
    (∀ n a cs text,
        (∀ y ∈ cs, isNamed "head" y = false) → (∀ y ∈ cs, isNamed "body" y = false) →
        hasNodeGo (fun d => d.name == some "title") (.elem n a (some cs)) = false →
        setTitle text (.elem n a (some cs))
          = some (.elem n a (some (.elem "head" (some []) (some [titleNode text]) :: cs)))) := by
  refine ⟨?_, ?_, ?_, ?_⟩
  · intro root text h
    exact ⟨by rw [setTitle, if_pos h], updateTitleGo_titles text root⟩
  · intro n a pre post ha hcs text hpre htitle
    rw [setTitle, if_neg (by simp [htitle]),
      withEnsuredHead_found _ n a pre post (.elem "head" ha (some hcs)) hpre rfl]
    rfl
  · intro n a pre post b text hnh hpre hb htitle
    rw [setTitle, if_neg (by simp [htitle]),
      withEnsuredHead_noHead_body _ _ _ _ _ _ hnh hpre hb]
    rfl
  · intro n a cs text hnh hnb htitle
    rw [setTitle, if_neg (by simp [htitle]),
      withEnsuredHead_noHead_noBody _ _ _ _ hnh hnb]
    rfl

/-- C7 witness: rewriting an existing title, and creating head before the
body child when no head and no title exist. -/
theorem claim7_witness :
    (hasNodeGo (fun d => d.name == some "title")
        (.elem "html" (some []) (some
          [ .elem "head" (some []) (some
              [ .elem "title" (some []) (some [.text "Old"]) ]) ])) = true ∧
      setTitle "New" (.elem "html" (some []) (some
          [ .elem "head" (some []) (some
              [ .elem "title" (some []) (some [.text "Old"]) ]) ]))
        = some (.elem "html" (some []) (some
          [ .elem "head" (some []) (some
              [ .elem "title" (some []) (some [.text "New"]) ]) ]))) ∧
    (isNamed "body" (JNode.elem "body" (some []) (some [])) = true ∧
      setTitle "T" (.elem "html" (some []) (some [ .elem "body" (some []) (some []) ]))
        = some (.elem "html" (some []) (some
            [ .elem "head" (some []) (some [titleNode "T"])
            , .elem "body" (some []) (some []) ]))) := by
  constructor
  · refine ⟨by decide, ?_⟩
    rw [(claim7_setTitle.1 _ "New" (by decide)).1]
    rfl
  · refine ⟨rfl, ?_⟩
    exact claim7_setTitle.2.2.1 "html" (some []) [] [] (.elem "body" (some []) (some []))
      "T" (by decide) (by decide) rfl (by decide)

/-- C8 counterexample: the claim says `setCharset` is a no-op whenever a
`meta` node has a `charset` attribute PRESENT; the source tests JS
truthiness of the value, so a meta with `charset=""` does not suppress
insertion: a second charset meta is prepended and the meta count rises
from 1 to 2. -/
theorem claim8_counterexample :
    (setCharset "utf-8" (.elem "html" (some []) (some
        [ .elem "head" (some []) (some
            [ .elem "meta" (some [("charset", "")]) (some []) ]) ]))).map countMetaTags
      = some 2 ∧
    countMetaTags (.elem "html" (some []) (some
        [ .elem "head" (some []) (some
            [ .elem "meta" (some [("charset", "")]) (some []) ]) ])) = 1 ∧
    setCharset "utf-8" (.elem "html" (some []) (some
        [ .elem "head" (some []) (some
            [ .elem "meta" (some [("charset", "")]) (some []) ]) ]))
      ≠ some (.elem "html" (some []) (some
        [ .elem "head" (some []) (some
            [ .elem "meta" (some [("charset", "")]) (some []) ]) ])) := by
  refine ⟨rfl, rfl, ?_⟩
  intro h
  have h2 : (some 2 : Option Nat) = some 1 := by
    calc (some 2 : Option Nat)
        = (setCharset "utf-8" (.elem "html" (some []) (some
            [ .elem "head" (some []) (some
                [ .elem "meta" (some [("charset", "")]) (some []) ]) ]))).map countMetaTags := rfl
      _ = (some (JNode.elem "html" (some []) (some
            [ .elem "head" (some []) (some
                [ .elem "meta" (some [("charset", "")]) (some []) ]) ]))).map countMetaTags := by
            rw [h]
      _ = some 1 := rfl
  simp at h2

/-- C8 (amended): `setCharset` is a no-op exactly when the charset signal
holds — a `meta` with a charset attribute carrying a NON-EMPTY value, or
`http-equiv` case-insensitively `content-type` with `content` containing
`charset` case-insensitively, or `name` case-insensitively `charset` —
and otherwise prepends one `{meta, {charset}}` to head; `setViewport` is
a no-op exactly when a meta with `attribs.name` exactly `viewport`
exists, else appends one viewport meta to head; a second call is a no-op
(so the meta count cannot keep growing) provided, for `setCharset`, the
charset argument is non-empty. -/
theorem claim8_meta_idempotence :
    (∀ c t t', c ≠ "" → setCharset c t = some t' → setCharset c t' = some t') ∧
    (∀ v t t', setViewport v t = some t' → setViewport v t' = some t') ∧
    (∀ c t, hasNodeGo charsetSignal t = true → setCharset c t = some t) ∧
    (∀ v t, hasNodeGo viewportSignal t = true → setViewport v t = some t) ∧
    (∀ c n a pre post ha hcs, (∀ y ∈ pre, isNamed "head" y = false) →
        hasNodeGo charsetSignal
          (.elem n a (some (pre ++ .elem "head" ha (some hcs) :: post))) = false →
        setCharset c (.elem n a (some (pre ++ .elem "head" ha (some hcs) :: post)))
          = some (.elem n a (some
              (pre ++ .elem "head" ha (some (metaCharsetNode c :: hcs)) :: post)))) ∧
    (∀ v n a pre post ha hcs, (∀ y ∈ pre, isNamed "head" y = false) →
        hasNodeGo viewportSignal
          (.elem n a (some (pre ++ .elem "head" ha (some hcs) :: post))) = false →
        setViewport v (.elem n a (some (pre ++ .elem "head" ha (some hcs) :: post)))
          = some (.elem n a (some
              (pre ++ .elem "head" ha (some (hcs ++ [metaViewportNode v])) :: post)))) := by
  refine ⟨fun c t t' hc h => setCharset_second c hc t t' h, setViewport_second,
    setCharset_noop, setViewport_noop, ?_, ?_⟩
  · intro c n a pre post ha hcs hpre hsig
    rw [setCharset, if_neg (by simp [hsig]),
      withEnsuredHead_found _ n a pre post (.elem "head" ha (some hcs)) hpre rfl]
    rfl
  · intro v n a pre post ha hcs hpre hsig
    rw [setViewport, if_neg (by simp [hsig]),
      withEnsuredHead_found _ n a pre post (.elem "head" ha (some hcs)) hpre rfl]
    rfl

/-- C8 witness: on a head-only document the first `setCharset` call
prepends the meta and the second call is a no-op (same for viewport, by
appending). -/
theorem claim8_witness :
    (("utf-8" : String) ≠ "" ∧
      setCharset "utf-8" (.elem "html" (some []) (some [ .elem "head" (some []) (some []) ]))
        = some (.elem "html" (some []) (some
            [ .elem "head" (some []) (some [metaCharsetNode "utf-8"]) ])) ∧
      setCharset "utf-8" (.elem "html" (some []) (some
            [ .elem "head" (some []) (some [metaCharsetNode "utf-8"]) ]))
        = some (.elem "html" (some []) (some
            [ .elem "head" (some []) (some [metaCharsetNode "utf-8"]) ]))) ∧
    (setViewport "w" (.elem "html" (some []) (some [ .elem "head" (some []) (some []) ]))
        = some (.elem "html" (some []) (some
            [ .elem "head" (some []) (some [metaViewportNode "w"]) ])) ∧
      setViewport "w" (.elem "html" (some []) (some
            [ .elem "head" (some []) (some [metaViewportNode "w"]) ]))
        = some (.elem "html" (some []) (some
            [ .elem "head" (some []) (some [metaViewportNode "w"]) ]))) := by
  have h1 : setCharset "utf-8"
      (.elem "html" (some []) (some [ .elem "head" (some []) (some []) ]))
      = some (.elem "html" (some []) (some
          [ .elem "head" (some []) (some [metaCharsetNode "utf-8"]) ])) :=
    claim8_meta_idempotence.2.2.2.2.1 "utf-8" "html" (some []) [] [] (some []) []
      (by decide) (by decide)
  have h2 : setViewport "w"
      (.elem "html" (some []) (some [ .elem "head" (some []) (some []) ]))
      = some (.elem "html" (some []) (some
          [ .elem "head" (some []) (some [metaViewportNode "w"]) ])) :=
    claim8_meta_idempotence.2.2.2.2.2 "w" "html" (some []) [] [] (some []) []
      (by decide) (by decide)
  exact ⟨⟨by decide, h1, claim8_meta_idempotence.1 "utf-8" _ _ (by decide) h1⟩,
    ⟨h2, claim8_meta_idempotence.2.1 "w" _ _ h2⟩⟩

/-- C10: none of the mutation operations changes the `(name, attribs)`
pair of any element that remains in the tree — the root's name/attribs
are always preserved, and every element pair of the result is a pair of
the input tree or the pair of a node the operation itself constructs
(`head`, `title`, the charset/viewport metas, `link`, `script`). -/
theorem claim10_frame :
    (∀ t t', ensureHead t = some t' →
        t'.nameOf = t.nameOf ∧ t'.attribsOf = t.attribsOf ∧
        ∀ pr ∈ elemPairs t', pr ∈ elemPairs t ∨ pr ∈ [("head", some [])]) ∧
    (∀ s t t', setTitle s t = some t' →
        t'.nameOf = t.nameOf ∧ t'.attribsOf = t.attribsOf ∧
        ∀ pr ∈ elemPairs t', pr ∈ elemPairs t ∨ pr ∈ [("head", some []), ("title", some [])]) ∧
    (∀ c t t', setCharset c t = some t' →
        t'.nameOf = t.nameOf ∧ t'.attribsOf = t.attribsOf ∧
        ∀ pr ∈ elemPairs t', pr ∈ elemPairs t
          ∨ pr ∈ [("head", some []), ("meta", some [("charset", c)])]) ∧
    (∀ v t t', setViewport v t = some t' →
        t'.nameOf = t.nameOf ∧ t'.attribsOf = t.attribsOf ∧
        ∀ pr ∈ elemPairs t', pr ∈ elemPairs t
          ∨ pr ∈ [("head", some []), ("meta", some [("name", "viewport"), ("content", v)])]) ∧
    (∀ href rel extra t t', insertLink href rel extra t = some t' →
        t'.nameOf = t.nameOf ∧ t'.attribsOf = t.attribsOf ∧
        ∀ pr ∈ elemPairs t', pr ∈ elemPairs t
          ∨ pr ∈ [("head", some []),
                  ("link", some (overrideWith extra [("rel", rel), ("href", href)]))]) ∧
    (∀ s t t', insertInlineScript s t = some t' →
        t'.nameOf = t.nameOf ∧ t'.attribsOf = t.attribsOf ∧
        ∀ pr ∈ elemPairs t', pr ∈ elemPairs t ∨ pr ∈ [("head", some []), ("script", some [])]) ∧
    (∀ (p : NodeView → Bool) t,
        (removeGo p t).nameOf = t.nameOf ∧ (removeGo p t).attribsOf = t.attribsOf ∧
        ∀ pr ∈ elemPairs (removeGo p t), pr ∈ elemPairs t) := by
  refine ⟨?_, ?_, ?_, ?_, ?_, ?_, ?_⟩
  · intro t t' h
    obtain ⟨e1, e2⟩ := withEnsuredHead_rootShape _ t t' h
    refine ⟨e1, e2, ?_⟩
    intro pr hpr
    have hf : ∀ h0 h0', (some h0 : Option JNode) = some h0' →
        ∀ pr ∈ elemPairs h0', pr ∈ elemPairs h0 ∨ pr ∈ ([] : List _) := by
      intro h0 h0' he pr hpr
      injection he with he
      subst he
      exact Or.inl hpr
    have := withEnsuredHead_pairs _ [] hf t t' h pr hpr
    simpa using this
  · intro s t t' h
    rw [setTitle] at h
    by_cases hs : hasNodeGo (fun d => d.name == some "title") t = true
    · rw [if_pos hs] at h
      injection h with h
      subst h
      obtain ⟨e1, e2⟩ := updateTitleGo_rootShape s t
      exact ⟨e1, e2, fun pr hpr => Or.inl (updateTitleGo_pairs s t pr hpr)⟩
    · rw [if_neg hs] at h
      obtain ⟨e1, e2⟩ := withEnsuredHead_rootShape _ t t' h
      refine ⟨e1, e2, ?_⟩
      intro pr hpr
      have := withEnsuredHead_pairs _ (elemPairs (titleNode s))
        (fun h0 h0' he => unshiftChild_pairs _ h0 h0' he) t t' h pr hpr
      rcases this with h1 | h1
      · exact Or.inl h1
      · exact Or.inr (by simpa [titleNode, elemPairs, elemPairsList] using h1)
  · intro c t t' h
    rw [setCharset] at h
    by_cases hs : hasNodeGo charsetSignal t = true
    · rw [if_pos hs] at h
      injection h with h
      subst h
      exact ⟨rfl, rfl, fun pr hpr => Or.inl hpr⟩
    · rw [if_neg hs] at h
      obtain ⟨e1, e2⟩ := withEnsuredHead_rootShape _ t t' h
      refine ⟨e1, e2, ?_⟩
      intro pr hpr
      have := withEnsuredHead_pairs _ (elemPairs (metaCharsetNode c))
        (fun h0 h0' he => unshiftChild_pairs _ h0 h0' he) t t' h pr hpr
      rcases this with h1 | h1
      · exact Or.inl h1
      · exact Or.inr (by simpa [metaCharsetNode, elemPairs, elemPairsList] using h1)
  · intro v t t' h
    rw [setViewport] at h
    by_cases hs : hasNodeGo viewportSignal t = true
    · rw [if_pos hs] at h
      injection h with h
      subst h
      exact ⟨rfl, rfl, fun pr hpr => Or.inl hpr⟩
    · rw [if_neg hs] at h
      obtain ⟨e1, e2⟩ := withEnsuredHead_rootShape _ t t' h
      refine ⟨e1, e2, ?_⟩
      intro pr hpr
      have := withEnsuredHead_pairs _ (elemPairs (metaViewportNode v))
        (fun h0 h0' he => pushChild_pairs _ h0 h0' he) t t' h pr hpr
      rcases this with h1 | h1
      · exact Or.inl h1
      · exact Or.inr (by simpa [metaViewportNode, elemPairs, elemPairsList] using h1)
  · intro href rel extra t t' h
    rw [insertLink] at h
    obtain ⟨e1, e2⟩ := withEnsuredHead_rootShape _ t t' h
    refine ⟨e1, e2, ?_⟩
    intro pr hpr
    have := withEnsuredHead_pairs _ (elemPairs (linkNode href rel extra))
      (fun h0 h0' he => pushChild_pairs _ h0 h0' he) t t' h pr hpr
    rcases this with h1 | h1
    · exact Or.inl h1
    · exact Or.inr (by simpa [linkNode, elemPairs, elemPairsList] using h1)
  · intro s t t' h
    rw [insertInlineScript] at h
    obtain ⟨e1, e2⟩ := withEnsuredHead_rootShape _ t t' h
    refine ⟨e1, e2, ?_⟩
    intro pr hpr
    have := withEnsuredHead_pairs _ (elemPairs (JNode.elem "script" (some []) (some [.text s])))
      (fun h0 h0' he => pushChild_pairs _ h0 h0' he) t t' h pr hpr
    rcases this with h1 | h1
    · exact Or.inl h1
    · exact Or.inr (by simpa [elemPairs, elemPairsList] using h1)
  · intro p t
    obtain ⟨e1, e2⟩ := removeGo_rootShape p t
    exact ⟨e1, e2, removeGo_pairs p t⟩

/-- C10 witness: inserting a link into a body-only document creates head
and preserves the root pair; the body pair survives. -/
theorem claim10_witness :
    insertLink "/s.css" "stylesheet" []
        (.elem "html" (some [("lang", "en")]) (some [ .elem "body" (some []) (some []) ]))
      = some (.elem "html" (some [("lang", "en")]) (some
          [ .elem "head" (some []) (some [linkNode "/s.css" "stylesheet" []])
          , .elem "body" (some []) (some []) ])) ∧
    ((JNode.elem "html" (some [("lang", "en")]) (some
          [ .elem "head" (some []) (some [linkNode "/s.css" "stylesheet" []])
          , .elem "body" (some []) (some []) ])).nameOf
        = (JNode.elem "html" (some [("lang", "en")])
            (some [ .elem "body" (some []) (some []) ])).nameOf ∧
      (JNode.elem "html" (some [("lang", "en")]) (some
          [ .elem "head" (some []) (some [linkNode "/s.css" "stylesheet" []])
          , .elem "body" (some []) (some []) ])).attribsOf
        = (JNode.elem "html" (some [("lang", "en")])
            (some [ .elem "body" (some []) (some []) ])).attribsOf) := by
  have h1 : insertLink "/s.css" "stylesheet" []
      (.elem "html" (some [("lang", "en")]) (some [ .elem "body" (some []) (some []) ]))
      = some (.elem "html" (some [("lang", "en")]) (some
          [ .elem "head" (some []) (some [linkNode "/s.css" "stylesheet" []])
          , .elem "body" (some []) (some []) ])) := by
    have hb := withEnsuredHead_noHead_body (pushChild (linkNode "/s.css" "stylesheet" []))
      "html" (some [("lang", "en")]) [] [] (.elem "body" (some []) (some []))
      (by decide) (by decide) rfl
    simp only [List.nil_append] at hb
    rw [insertLink, hb]
    rfl
  have h2 := claim10_frame.2.2.2.2.1 "/s.css" "stylesheet" [] _ _ h1
  exact ⟨h1, h2.1, h2.2.1⟩

/-- C1: `toTree` returns null exactly when the parsed document has no
top-level node named `html`, and otherwise the conversion of the first
such node, where the conversion maps a text node with some non-whitespace
character to the verbatim string, drops pure-whitespace text, maps a
`tag`/`script`/`style` node to an element with its name, an
always-present attribs mapping and the filtered recursively mapped
children, and drops every other node type together with its subtree. -/
theorem claim1_toTree :
    (∀ dom : List RawNode, dom.find? (fun n => n.rnameOf == some "html") = none →
        htmlToJsonDom dom = none) ∧
    (∀ (dom : List RawNode) n, dom.find? (fun n => n.rnameOf == some "html") = some n →
        htmlToJsonDom dom = nodeToJson n) ∧
    (∀ h, htmlToJson h = htmlToJsonDom (parseDocument h)) ∧
    (∀ nm ats d ch, (∃ c ∈ (d : String).data, wsChar c = false) →
        nodeToJson (.mk "text" nm ats (some d) ch) = some (.text d)) ∧
    (∀ nm ats d ch, (∀ c ∈ (d : String).data, wsChar c = true) →
        nodeToJson (.mk "text" nm ats (some d) ch) = none) ∧
    (∀ ty nm ats d ch, ty = "tag" ∨ ty = "script" ∨ ty = "style" →
        nodeToJson (.mk ty nm ats d ch)
          = some (.elem (nm.getD "") (some (ats.getD []))
              (some ((ch.getD []).filterMap nodeToJson)))) ∧
    (∀ ty nm ats d ch, ty ≠ "text" → ¬(ty = "tag" ∨ ty = "script" ∨ ty = "style") →
        nodeToJson (.mk ty nm ats d ch) = none) := by
  refine ⟨?_, ?_, fun h => rfl, ?_, ?_, ?_, ?_⟩
  · intro dom h
    simp [htmlToJsonDom, h]
  · intro dom n h
    simp [htmlToJsonDom, h]
  · intro nm ats d ch hx
    have hd : trimList d.data ≠ [] := (trimList_ne_nil_iff d.data).mpr hx
    cases ch <;> simp [nodeToJson, hd]
  · intro nm ats d ch hx
    have hd : trimList d.data = [] := (trimList_eq_nil_iff d.data).mpr hx
    cases ch <;> simp [nodeToJson, hd]
  · intro ty nm ats d ch hty
    rcases hty with h | h | h <;> subst h <;> cases ch <;>
      simp [nodeToJson, nodesToJson_eq_filterMap]
  · intro ty nm ats d ch h1 h2
    cases ch <;> simp [nodeToJson, h1, h2]

/-- C1 witness: the spec's fragment-only example parses to a document with
no top-level `html` node and converts to null; a non-whitespace text node
keeps its data verbatim. -/
theorem claim1_witness :
    ((parseDocument "<div>test</div>").find? (fun n => n.rnameOf == some "html") = none) ∧
    htmlToJson "<div>test</div>" = none ∧
    (∃ c ∈ ("Hi" : String).data, wsChar c = false) ∧
    nodeToJson (.mk "text" none none (some "Hi") none) = some (.text "Hi") := by
  refine ⟨rfl, ?_, ⟨'H', by decide, by decide⟩,
    claim1_toTree.2.2.2.1 none none "Hi" none ⟨'H', by decide, by decide⟩⟩
  exact claim1_toTree.1 (parseDocument "<div>test</div>") rfl

/-! ### Scanning lemmas for the modelled parser -/

theorem leadsWith_append_self (seq r : List Char) : leadsWith seq (seq ++ r) = true := by
  induction seq with
  | nil => rfl
  | cons c cs ih => simp [leadsWith, ih]

/-- First-occurrence split at the intended boundary: when the raw text
contains no `<`, the closing sequence (which starts with `<`) first
matches exactly where it was appended. -/
theorem splitOnSeq_boundary (s : List Char) (T r : List Char) (hT : '<' ∉ T) :
    splitOnSeq ('<' :: s) (T ++ ('<' :: s) ++ r) = some (T, r) := by
  induction T with
  | nil =>
      simp only [List.nil_append]
      rw [show ('<' :: s) ++ r = '<' :: (s ++ r) from rfl, splitOnSeq,
        if_pos (show leadsWith ('<' :: s) ('<' :: (s ++ r)) = true from
          leadsWith_append_self ('<' :: s) r)]
      rw [show ('<' :: (s ++ r)) = ('<' :: s) ++ r from rfl, List.drop_left]
  | cons c cs ih =>
      have hc : c ≠ '<' := fun h => hT (by simp [h])
      have hcs : '<' ∉ cs := fun h => hT (List.mem_cons_of_mem _ h)
      rw [List.cons_append, List.cons_append, splitOnSeq,
        if_neg (by simp [leadsWith, Ne.symm hc])]
      rw [ih hcs]

/-- Attribute-value scan over a quote-free payload. -/
theorem scanAttrsAux_val (V : List Char) (hV : '\x22' ∉ V) :
    ∀ (rest k v : List Char) (acc : List (String × String)),
    scanAttrsAux (V ++ '\x22' :: rest) (.val k v) acc
      = scanAttrsAux rest .top (acc ++ [(k.asString, (v ++ V).asString)]) := by
  induction V with
  | nil =>
      intro rest k v acc
      simp [scanAttrsAux]
  | cons c cs ih =>
      intro rest k v acc
      have hc : c ≠ '\x22' := fun h => hV (by simp [h])
      have hcs : '\x22' ∉ cs := fun h => hV (List.mem_cons_of_mem _ h)
      rw [List.cons_append, scanAttrsAux, if_neg hc, ih hcs]
      simp

theorem asString_data (s : String) : s.data.asString = s := rfl

theorem data_asString (l : List Char) : (l.asString).data = l := rfl

/-- Parse step: an attribute-free open tag for a non-raw-text element. -/
theorem psOpenHead (f : Nat) (rest : List Char) (stack : List PFrame) :
    parseLoop (f + 1) (("<head>").data ++ rest) stack
      = parseLoop f rest (⟨"head", [], []⟩ :: stack) := by
  rw [show ("<head>").data ++ rest = '<' :: 'h' :: 'e' :: 'a' :: 'd' :: '>' :: rest from rfl,
    parseLoop]
  simp [scanAttrs, scanAttrsAux, nameChar, isRawText, List.takeWhile, List.dropWhile,
    show ['h', 'e', 'a', 'd'].asString = "head" from rfl]

/-- Parse step: `<html>` with no attributes. -/
theorem psOpenHtmlNoLang (f : Nat) (rest : List Char) (stack : List PFrame) :
    parseLoop (f + 1) (("<html>").data ++ rest) stack
      = parseLoop f rest (⟨"html", [], []⟩ :: stack) := by
  rw [show ("<html>").data ++ rest = '<' :: 'h' :: 't' :: 'm' :: 'l' :: '>' :: rest from rfl,
    parseLoop]
  simp [scanAttrs, scanAttrsAux, nameChar, isRawText, List.takeWhile, List.dropWhile,
    show ['h', 't', 'm', 'l'].asString = "html" from rfl]

/-- Parse step: `<html lang="…">` with a quote-free lang value. -/
theorem psOpenHtmlLang (f : Nat) (l : String) (rest : List Char) (stack : List PFrame)
    (hl : '\x22' ∉ l.data) :
    parseLoop (f + 1) (("<html lang=\x22").data ++ (l.data ++ (("\x22>").data ++ rest))) stack
      = parseLoop f rest (⟨"html", [("lang", l)], []⟩ :: stack) := by
  rw [show ("<html lang=\x22").data ++ (l.data ++ (("\x22>").data ++ rest))
      = '<' :: 'h' :: 't' :: 'm' :: 'l' :: ' ' :: 'l' :: 'a' :: 'n' :: 'g' :: '=' :: '\x22'
          :: (l.data ++ ('\x22' :: '>' :: rest)) from rfl,
    parseLoop]
  simp [scanAttrs, scanAttrsAux, nameChar, isRawText, List.takeWhile, List.dropWhile,
    scanAttrsAux_val l.data hl, asString_data,
    show ['h', 't', 'm', 'l'].asString = "html" from rfl,
    show ['l', 'a', 'n', 'g'].asString = "lang" from rfl]

/-- Parse step: `<meta charset="…" />` with a quote-free charset value. -/
theorem psMeta1 (f : Nat) (C : String) (rest : List Char) (stack : List PFrame)
    (hC : '\x22' ∉ C.data) :
    parseLoop (f + 1)
        (("<meta charset=\x22").data ++ (C.data ++ (("\x22 />").data ++ rest))) stack
      = parseLoop f rest (appendChild (metaCharsetRaw C) stack) := by
  rw [show ("<meta charset=\x22").data ++ (C.data ++ (("\x22 />").data ++ rest))
      = '<' :: 'm' :: 'e' :: 't' :: 'a' :: ' ' :: 'c' :: 'h' :: 'a' :: 'r' :: 's' :: 'e'
          :: 't' :: '=' :: '\x22' :: (C.data ++ ('\x22' :: ' ' :: '/' :: '>' :: rest))
        from rfl,
    parseLoop]
  simp [scanAttrs, scanAttrsAux, nameChar, isRawText, List.takeWhile, List.dropWhile,
    scanAttrsAux_val C.data hC, asString_data, metaCharsetRaw, mkElem, typeFor,
    show ['m', 'e', 't', 'a'].asString = "meta" from rfl,
    show ['c', 'h', 'a', 'r', 's', 'e', 't'].asString = "charset" from rfl]

/-- Parse step: `<meta name="viewport" content="…" />` with a quote-free
content value. -/
theorem psMeta2 (f : Nat) (V : String) (rest : List Char) (stack : List PFrame)
    (hV : '\x22' ∉ V.data) :
    parseLoop (f + 1)
        (("<meta name=\x22viewport\x22 content=\x22").data
          ++ (V.data ++ (("\x22 />").data ++ rest))) stack
      = parseLoop f rest (appendChild (metaViewportRaw V) stack) := by
  rw [show ("<meta name=\x22viewport\x22 content=\x22").data
        ++ (V.data ++ (("\x22 />").data ++ rest))
      = '<' :: 'm' :: 'e' :: 't' :: 'a' :: ' ' :: 'n' :: 'a' :: 'm' :: 'e' :: '=' :: '\x22'
          :: 'v' :: 'i' :: 'e' :: 'w' :: 'p' :: 'o' :: 'r' :: 't' :: '\x22' :: ' '
          :: 'c' :: 'o' :: 'n' :: 't' :: 'e' :: 'n' :: 't' :: '=' :: '\x22'
          :: (V.data ++ ('\x22' :: ' ' :: '/' :: '>' :: rest)) from rfl,
    parseLoop]
  simp [scanAttrs, scanAttrsAux, nameChar, isRawText, List.takeWhile, List.dropWhile,
    scanAttrsAux_val V.data hV, asString_data, metaViewportRaw, mkElem, typeFor,
    show ['m', 'e', 't', 'a'].asString = "meta" from rfl,
    show ['n', 'a', 'm', 'e'].asString = "name" from rfl,
    show ['v', 'i', 'e', 'w', 'p', 'o', 'r', 't'].asString = "viewport" from rfl,
    show ['c', 'o', 'n', 't', 'e', 'n', 't'].asString = "content" from rfl]

/-- Specialised first-occurrence split for the title closing tag. -/
theorem splitTitleSeq (T : List Char) (rest : List Char) (hT : '<' ∉ T) :
    splitOnSeq ('<' :: '/' :: ("title").data)
        (T ++ ('<' :: '/' :: 't' :: 'i' :: 't' :: 'l' :: 'e' :: '>' :: rest))
      = some (T, '>' :: rest) := by
  have h := splitOnSeq_boundary ('/' :: 't' :: 'i' :: 't' :: 'l' :: 'e' :: []) T
    ('>' :: rest) hT
  simpa using h

/-- Parse step: `<title>…</title>` with `<`-free title text. -/
theorem psTitle (f : Nat) (T : String) (rest : List Char) (stack : List PFrame)
    (hT : '<' ∉ T.data) :
    parseLoop (f + 1) (("<title>").data ++ (T.data ++ (("</title>").data ++ rest))) stack
      = parseLoop f rest (appendChild (titleRaw T) stack) := by
  rw [show ("<title>").data ++ (T.data ++ (("</title>").data ++ rest))
      = '<' :: 't' :: 'i' :: 't' :: 'l' :: 'e' :: '>'
          :: (T.data ++ ('<' :: '/' :: 't' :: 'i' :: 't' :: 'l' :: 'e' :: '>' :: rest))
        from rfl,
    parseLoop]
  simp [scanAttrs, scanAttrsAux, nameChar, isRawText, List.takeWhile, List.dropWhile,
    data_asString, splitTitleSeq T.data rest hT, skipPast, titleRaw, mkElem, typeFor,
    show ['t', 'i', 't', 'l', 'e'].asString = "title" from rfl]

/-- Parse step: `<body>`. -/
theorem psOpenBody (f : Nat) (rest : List Char) (stack : List PFrame) :
    parseLoop (f + 1) (("<body>").data ++ rest) stack
      = parseLoop f rest (⟨"body", [], []⟩ :: stack) := by
  rw [show ("<body>").data ++ rest = '<' :: 'b' :: 'o' :: 'd' :: 'y' :: '>' :: rest from rfl,
    parseLoop]
  simp [scanAttrs, scanAttrsAux, nameChar, isRawText, List.takeWhile, List.dropWhile,
    show ['b', 'o', 'd', 'y'].asString = "body" from rfl]

/-- Parse step: `</head>`. -/
theorem psCloseHead (f : Nat) (rest : List Char) (stack : List PFrame) :
    parseLoop (f + 1) (("</head>").data ++ rest) stack
      = parseLoop f rest (closeTag "head" stack) := by
  rw [show ("</head>").data ++ rest
      = '<' :: '/' :: 'h' :: 'e' :: 'a' :: 'd' :: '>' :: rest from rfl, parseLoop]
  simp [cnameChar, skipPast, List.takeWhile, List.dropWhile,
    show ['h', 'e', 'a', 'd'].asString = "head" from rfl]

/-- Parse step: `</body>`. -/
theorem psCloseBody (f : Nat) (rest : List Char) (stack : List PFrame) :
    parseLoop (f + 1) (("</body>").data ++ rest) stack
      = parseLoop f rest (closeTag "body" stack) := by
  rw [show ("</body>").data ++ rest
      = '<' :: '/' :: 'b' :: 'o' :: 'd' :: 'y' :: '>' :: rest from rfl, parseLoop]
  simp [cnameChar, skipPast, List.takeWhile, List.dropWhile,
    show ['b', 'o', 'd', 'y'].asString = "body" from rfl]

/-- Parse step: `</html>`. -/
theorem psCloseHtml (f : Nat) (rest : List Char) (stack : List PFrame) :
    parseLoop (f + 1) (("</html>").data ++ rest) stack
      = parseLoop f rest (closeTag "html" stack) := by
  rw [show ("</html>").data ++ rest
      = '<' :: '/' :: 'h' :: 't' :: 'm' :: 'l' :: '>' :: rest from rfl, parseLoop]
  simp [cnameChar, skipPast, List.takeWhile, List.dropWhile,
    show ['h', 't', 'm', 'l'].asString = "html" from rfl]

/-- Exhausted input finalizes the stack whatever the remaining fuel. -/
theorem parseLoopNil (f : Nat) (stack : List PFrame) :
    parseLoop f [] stack = finalize stack := by
  cases f <;> rfl

/-- The parse trace of the serialized document body after the `<html …>`
open tag: head with the two metas and the title, then the body, with
every element closed back into place. -/
theorem parse_trace_suffix (f : Nat) (A : List (String × String)) (C V T : String)
    (hC : '\x22' ∉ C.data) (hV : '\x22' ∉ V.data) (hT : '<' ∉ T.data) :
    parseLoop (f + 8) (docSuffix C V T) [⟨"html", A, []⟩, ⟨"", [], []⟩]
      = [htmlRaw A C V T] := by
  rw [docSuffix, show f + 8 = (f + 7) + 1 from rfl, psOpenHead,
    show f + 7 = (f + 6) + 1 from rfl, psMeta1 _ _ _ _ hC,
    show f + 6 = (f + 5) + 1 from rfl, psMeta2 _ _ _ _ hV,
    show f + 5 = (f + 4) + 1 from rfl, psTitle _ _ _ _ hT,
    show f + 4 = (f + 3) + 1 from rfl, psCloseHead,
    show f + 3 = (f + 2) + 1 from rfl, psOpenBody,
    show f + 2 = (f + 1) + 1 from rfl, psCloseBody,
    psCloseHtml, parseLoopNil]
  simp [appendChild, closeTag, closeFrame, finalize, finalizeGo, htmlRaw, headRaw, bodyRaw,
    metaCharsetRaw, metaViewportRaw, titleRaw, mkElem, typeFor]

/-! ### Serialisation of the document skeleton -/

theorem openTagStr_cons (n k v : String) (r : List (String × String)) :
    openTagStr n (attrStr ((k, v) :: r)) = "<" ++ n ++ " " ++ attrStr ((k, v) :: r) ++ ">" := by
  rw [openTagStr, if_neg (attrStr_ne_empty k v r)]

theorem selfCloseStr_cons (n k v : String) (r : List (String × String)) :
    selfCloseStr n (attrStr ((k, v) :: r))
      = "<" ++ n ++ " " ++ attrStr ((k, v) :: r) ++ " />" := by
  rw [selfCloseStr, if_neg (attrStr_ne_empty k v r)]

/-- Serialisation of the skeleton without a lang attribute. -/
theorem serialize_noLang (T C V : String) :
    (jsonToHtml (createHtmlDocument T ⟨none, C, V⟩)).data
      = ("<html>").data ++ docSuffix C V T := by
  simp only [createHtmlDocument, jsonToHtml, jsonListToHtml, Option.getD_some,
    if_pos (show ("meta" : String) ∈ SELF_CLOSING_TAGS by decide),
    if_neg (show ¬ ("body" : String) ∈ SELF_CLOSING_TAGS by decide), selfCloseStr_cons]
  simp only [String.data_append, docSuffix, attrStr, joinSpace, List.map_cons, List.map_nil,
    openTagStr, selfCloseStr, ite_true, ite_false, if_pos rfl, List.append_assoc,
    List.cons_append, List.nil_append, List.append_nil,
    show ("<" : String).data = ['<'] from rfl,
    show (" " : String).data = [' '] from rfl,
    show (">" : String).data = ['>'] from rfl,
    show (" />" : String).data = [' ', '/', '>'] from rfl,
    show ("</" : String).data = ['<', '/'] from rfl,
    show ("=\x22" : String).data = ['=', '\x22'] from rfl,
    show ("\x22" : String).data = ['\x22'] from rfl,
    show ("" : String).data = [] from rfl,
    show ("html" : String).data = ['h', 't', 'm', 'l'] from rfl,
    show ("head" : String).data = ['h', 'e', 'a', 'd'] from rfl,
    show ("meta" : String).data = ['m', 'e', 't', 'a'] from rfl,
    show ("title" : String).data = ['t', 'i', 't', 'l', 'e'] from rfl,
    show ("body" : String).data = ['b', 'o', 'd', 'y'] from rfl,
    show ("charset" : String).data = ['c', 'h', 'a', 'r', 's', 'e', 't'] from rfl,
    show ("name" : String).data = ['n', 'a', 'm', 'e'] from rfl,
    show ("viewport" : String).data = ['v', 'i', 'e', 'w', 'p', 'o', 'r', 't'] from rfl,
    show ("content" : String).data = ['c', 'o', 'n', 't', 'e', 'n', 't'] from rfl,
    show ("lang" : String).data = ['l', 'a', 'n', 'g'] from rfl,
    show ("<html>" : String).data = ['<', 'h', 't', 'm', 'l', '>'] from rfl,
    show ("<head>" : String).data = ['<', 'h', 'e', 'a', 'd', '>'] from rfl,
    show ("<meta charset=\x22" : String).data = ['<', 'm', 'e', 't', 'a', ' ', 'c', 'h', 'a', 'r', 's', 'e', 't', '=', '\x22'] from rfl,
    show ("\x22 />" : String).data = ['\x22', ' ', '/', '>'] from rfl,
    show ("<meta name=\x22viewport\x22 content=\x22" : String).data = ['<', 'm', 'e', 't', 'a', ' ', 'n', 'a', 'm', 'e', '=', '\x22', 'v', 'i', 'e', 'w', 'p', 'o', 'r', 't', '\x22', ' ', 'c', 'o', 'n', 't', 'e', 'n', 't', '=', '\x22'] from rfl,
    show ("<title>" : String).data = ['<', 't', 'i', 't', 'l', 'e', '>'] from rfl,
    show ("</title>" : String).data = ['<', '/', 't', 'i', 't', 'l', 'e', '>'] from rfl,
    show ("</head>" : String).data = ['<', '/', 'h', 'e', 'a', 'd', '>'] from rfl,
    show ("<body>" : String).data = ['<', 'b', 'o', 'd', 'y', '>'] from rfl,
    show ("</body>" : String).data = ['<', '/', 'b', 'o', 'd', 'y', '>'] from rfl,
    show ("</html>" : String).data = ['<', '/', 'h', 't', 'm', 'l', '>'] from rfl,
    show ("<html lang=\x22" : String).data = ['<', 'h', 't', 'm', 'l', ' ', 'l', 'a', 'n', 'g', '=', '\x22'] from rfl,
    show ("\x22>" : String).data = ['\x22', '>'] from rfl]

/-- Serialisation of the skeleton with an empty (hence dropped) lang. -/
theorem serialize_emptyLang (T C V : String) :
    (jsonToHtml (createHtmlDocument T ⟨some "", C, V⟩)).data
      = ("<html>").data ++ docSuffix C V T := by
  simp only [createHtmlDocument, jsonToHtml, jsonListToHtml, Option.getD_some,
    if_pos (show ("meta" : String) ∈ SELF_CLOSING_TAGS by decide),
    if_neg (show ¬ ("body" : String) ∈ SELF_CLOSING_TAGS by decide), selfCloseStr_cons]
  simp only [String.data_append, docSuffix, attrStr, joinSpace, List.map_cons, List.map_nil,
    openTagStr, selfCloseStr, ite_true, ite_false, if_pos rfl, List.append_assoc,
    List.cons_append, List.nil_append, List.append_nil,
    show ("<" : String).data = ['<'] from rfl,
    show (" " : String).data = [' '] from rfl,
    show (">" : String).data = ['>'] from rfl,
    show (" />" : String).data = [' ', '/', '>'] from rfl,
    show ("</" : String).data = ['<', '/'] from rfl,
    show ("=\x22" : String).data = ['=', '\x22'] from rfl,
    show ("\x22" : String).data = ['\x22'] from rfl,
    show ("" : String).data = [] from rfl,
    show ("html" : String).data = ['h', 't', 'm', 'l'] from rfl,
    show ("head" : String).data = ['h', 'e', 'a', 'd'] from rfl,
    show ("meta" : String).data = ['m', 'e', 't', 'a'] from rfl,
    show ("title" : String).data = ['t', 'i', 't', 'l', 'e'] from rfl,
    show ("body" : String).data = ['b', 'o', 'd', 'y'] from rfl,
    show ("charset" : String).data = ['c', 'h', 'a', 'r', 's', 'e', 't'] from rfl,
    show ("name" : String).data = ['n', 'a', 'm', 'e'] from rfl,
    show ("viewport" : String).data = ['v', 'i', 'e', 'w', 'p', 'o', 'r', 't'] from rfl,
    show ("content" : String).data = ['c', 'o', 'n', 't', 'e', 'n', 't'] from rfl,
    show ("lang" : String).data = ['l', 'a', 'n', 'g'] from rfl,
    show ("<html>" : String).data = ['<', 'h', 't', 'm', 'l', '>'] from rfl,
    show ("<head>" : String).data = ['<', 'h', 'e', 'a', 'd', '>'] from rfl,
    show ("<meta charset=\x22" : String).data = ['<', 'm', 'e', 't', 'a', ' ', 'c', 'h', 'a', 'r', 's', 'e', 't', '=', '\x22'] from rfl,
    show ("\x22 />" : String).data = ['\x22', ' ', '/', '>'] from rfl,
    show ("<meta name=\x22viewport\x22 content=\x22" : String).data = ['<', 'm', 'e', 't', 'a', ' ', 'n', 'a', 'm', 'e', '=', '\x22', 'v', 'i', 'e', 'w', 'p', 'o', 'r', 't', '\x22', ' ', 'c', 'o', 'n', 't', 'e', 'n', 't', '=', '\x22'] from rfl,
    show ("<title>" : String).data = ['<', 't', 'i', 't', 'l', 'e', '>'] from rfl,
    show ("</title>" : String).data = ['<', '/', 't', 'i', 't', 'l', 'e', '>'] from rfl,
    show ("</head>" : String).data = ['<', '/', 'h', 'e', 'a', 'd', '>'] from rfl,
    show ("<body>" : String).data = ['<', 'b', 'o', 'd', 'y', '>'] from rfl,
    show ("</body>" : String).data = ['<', '/', 'b', 'o', 'd', 'y', '>'] from rfl,
    show ("</html>" : String).data = ['<', '/', 'h', 't', 'm', 'l', '>'] from rfl,
    show ("<html lang=\x22" : String).data = ['<', 'h', 't', 'm', 'l', ' ', 'l', 'a', 'n', 'g', '=', '\x22'] from rfl,
    show ("\x22>" : String).data = ['\x22', '>'] from rfl]

/-- Serialisation of the skeleton with a non-empty lang attribute. -/
theorem serialize_lang (T C V l : String) (hl : l ≠ "") :
    (jsonToHtml (createHtmlDocument T ⟨some l, C, V⟩)).data
      = ("<html lang=\x22").data ++ (l.data ++ (("\x22>").data ++ docSuffix C V T)) := by
  simp only [createHtmlDocument, jsonToHtml, jsonListToHtml, Option.getD_some, if_neg hl,
    if_pos (show ("meta" : String) ∈ SELF_CLOSING_TAGS by decide),
    if_neg (show ¬ ("body" : String) ∈ SELF_CLOSING_TAGS by decide),
    selfCloseStr_cons, openTagStr_cons]
  simp only [String.data_append, docSuffix, attrStr, joinSpace, List.map_cons, List.map_nil,
    openTagStr, selfCloseStr, ite_true, ite_false, if_pos rfl, List.append_assoc,
    List.cons_append, List.nil_append, List.append_nil,
    show ("<" : String).data = ['<'] from rfl,
    show (" " : String).data = [' '] from rfl,
    show (">" : String).data = ['>'] from rfl,
    show (" />" : String).data = [' ', '/', '>'] from rfl,
    show ("</" : String).data = ['<', '/'] from rfl,
    show ("=\x22" : String).data = ['=', '\x22'] from rfl,
    show ("\x22" : String).data = ['\x22'] from rfl,
    show ("" : String).data = [] from rfl,
    show ("html" : String).data = ['h', 't', 'm', 'l'] from rfl,
    show ("head" : String).data = ['h', 'e', 'a', 'd'] from rfl,
    show ("meta" : String).data = ['m', 'e', 't', 'a'] from rfl,
    show ("title" : String).data = ['t', 'i', 't', 'l', 'e'] from rfl,
    show ("body" : String).data = ['b', 'o', 'd', 'y'] from rfl,
    show ("charset" : String).data = ['c', 'h', 'a', 'r', 's', 'e', 't'] from rfl,
    show ("name" : String).data = ['n', 'a', 'm', 'e'] from rfl,
    show ("viewport" : String).data = ['v', 'i', 'e', 'w', 'p', 'o', 'r', 't'] from rfl,
    show ("content" : String).data = ['c', 'o', 'n', 't', 'e', 'n', 't'] from rfl,
    show ("lang" : String).data = ['l', 'a', 'n', 'g'] from rfl,
    show ("<html>" : String).data = ['<', 'h', 't', 'm', 'l', '>'] from rfl,
    show ("<head>" : String).data = ['<', 'h', 'e', 'a', 'd', '>'] from rfl,
    show ("<meta charset=\x22" : String).data = ['<', 'm', 'e', 't', 'a', ' ', 'c', 'h', 'a', 'r', 's', 'e', 't', '=', '\x22'] from rfl,
    show ("\x22 />" : String).data = ['\x22', ' ', '/', '>'] from rfl,
    show ("<meta name=\x22viewport\x22 content=\x22" : String).data = ['<', 'm', 'e', 't', 'a', ' ', 'n', 'a', 'm', 'e', '=', '\x22', 'v', 'i', 'e', 'w', 'p', 'o', 'r', 't', '\x22', ' ', 'c', 'o', 'n', 't', 'e', 'n', 't', '=', '\x22'] from rfl,
    show ("<title>" : String).data = ['<', 't', 'i', 't', 'l', 'e', '>'] from rfl,
    show ("</title>" : String).data = ['<', '/', 't', 'i', 't', 'l', 'e', '>'] from rfl,
    show ("</head>" : String).data = ['<', '/', 'h', 'e', 'a', 'd', '>'] from rfl,
    show ("<body>" : String).data = ['<', 'b', 'o', 'd', 'y', '>'] from rfl,
    show ("</body>" : String).data = ['<', '/', 'b', 'o', 'd', 'y', '>'] from rfl,
    show ("</html>" : String).data = ['<', '/', 'h', 't', 'm', 'l', '>'] from rfl,
    show ("<html lang=\x22" : String).data = ['<', 'h', 't', 'm', 'l', ' ', 'l', 'a', 'n', 'g', '=', '\x22'] from rfl,
    show ("\x22>" : String).data = ['\x22', '>'] from rfl]

/-- Full parse of a serialized skeleton without a lang attribute. -/
theorem parseDocument_noLang (title C V : String)
    (hC : '\x22' ∉ C.data) (hV : '\x22' ∉ V.data) (hT : '<' ∉ title.data)
    (hser : (jsonToHtml (createHtmlDocument title ⟨none, C, V⟩)).data
      = ("<html>").data ++ docSuffix C V title) :
    parseDocument (jsonToHtml (createHtmlDocument title ⟨none, C, V⟩))
      = [htmlRaw [] C V title] := by
  have hlen : 8 ≤ (jsonToHtml (createHtmlDocument title ⟨none, C, V⟩)).data.length := by
    rw [hser, List.length_append, docSuffix, List.length_append,
      show (("<html>").data).length = 6 from rfl,
      show (("<head>").data).length = 6 from rfl]
    omega
  rw [hser] at hlen
  unfold parseDocument
  rw [hser]
  rw [show (("<html>").data ++ docSuffix C V title).length + 1
      = (((("<html>").data ++ docSuffix C V title).length - 8 + 8) + 1) from by omega]
  rw [psOpenHtmlNoLang]
  exact parse_trace_suffix _ [] C V title hC hV hT

/-- Full parse of a serialized skeleton with a non-empty lang attribute. -/
theorem parseDocument_lang (title C V l : String)
    (hC : '\x22' ∉ C.data) (hV : '\x22' ∉ V.data) (hT : '<' ∉ title.data)
    (hser : (jsonToHtml (createHtmlDocument title ⟨some l, C, V⟩)).data
      = ("<html lang=\x22").data ++ (l.data ++ (("\x22>").data ++ docSuffix C V title)))
    (hl : '\x22' ∉ l.data) :
    parseDocument (jsonToHtml (createHtmlDocument title ⟨some l, C, V⟩))
      = [htmlRaw [("lang", l)] C V title] := by
  have hlen : 8 ≤ (jsonToHtml (createHtmlDocument title ⟨some l, C, V⟩)).data.length := by
    rw [hser, List.length_append,
      show (("<html lang=\x22").data).length = 12 from rfl]
    omega
  rw [hser] at hlen
  unfold parseDocument
  rw [hser]
  rw [show (("<html lang=\x22").data
        ++ (l.data ++ (("\x22>").data ++ docSuffix C V title))).length + 1
      = (((("<html lang=\x22").data
        ++ (l.data ++ (("\x22>").data ++ docSuffix C V title))).length - 8 + 8) + 1)
      from by omega]
  rw [psOpenHtmlLang _ _ _ _ hl]
  exact parse_trace_suffix _ [("lang", l)] C V title hC hV hT

/-- Conversion of the parsed skeleton back to a canonical tree. -/
theorem htmlToJsonDom_skeleton (A : List (String × String)) (C V T : String) :
    htmlToJsonDom [htmlRaw A C V T]
      = some (JNode.elem "html" (some A)
          (some [ JNode.elem "head" (some [])
                    (some (nodesToJson [metaCharsetRaw C, metaViewportRaw V, titleRaw T]))
                , JNode.elem "body" (some []) (some []) ])) := by
  simp [htmlToJsonDom, List.find?, htmlRaw, headRaw, bodyRaw, mkElem, typeFor,
    RawNode.rnameOf, nodeToJson, nodesToJson]

set_option maxRecDepth 4000 in
/-- C3 counterexample: the source interpolates attribute values without
escaping (spec §9 flags this), so a quote inside the lang option splits
into extra attributes on re-parsing: the round-tripped root attribs differ
from the original. -/
theorem claim3_counterexample :
    (htmlToJson (jsonToHtml (createHtmlDocument "t"
        ⟨some "en\x22 id=\x22x", "utf-8", "w"⟩))).map JNode.attribsOf
      = some (some [("lang", "en"), ("id", "x")]) ∧
    (createHtmlDocument "t" ⟨some "en\x22 id=\x22x", "utf-8", "w"⟩).attribsOf
      = some [("lang", "en\x22 id=\x22x")] ∧
    ([("lang", "en"), ("id", "x")] : List (String × String))
      ≠ [("lang", "en\x22 id=\x22x")] :=
  ⟨rfl, rfl, by decide⟩

/-- C3 (amended): for every title containing no `<` character and options
whose lang/charset/viewport values contain no double quote (the values are
interpolated unescaped, so a quote breaks the markup — spec §9), the
round trip `toTree (toHtml T)` of a document-skeleton tree yields a tree
with the same name, the same attribs mapping, and the same number of
top-level children; the parse side uses the spec-modelled adapter. -/
theorem claim3_roundtrip (title : String) (opts : DocOptions)
    (hT : '<' ∉ title.data)
    (hC : '\x22' ∉ opts.charset.data)
    (hV : '\x22' ∉ opts.viewport.data)
    (hL : ∀ l, opts.lang = some l → '\x22' ∉ l.data) :
    ∃ t', htmlToJson (jsonToHtml (createHtmlDocument title opts)) = some t' ∧
      t'.nameOf = (createHtmlDocument title opts).nameOf ∧
      t'.attribsOf = (createHtmlDocument title opts).attribsOf ∧
      (t'.childrenOf).map List.length
        = ((createHtmlDocument title opts).childrenOf).map List.length := by
  obtain ⟨lg, C, V⟩ := opts
  match lg with
  | none =>
      have hdoc := parseDocument_noLang title C V hC hV hT (serialize_noLang title C V)
      refine ⟨JNode.elem "html" (some [])
          (some [ JNode.elem "head" (some [])
                    (some (nodesToJson [metaCharsetRaw C, metaViewportRaw V, titleRaw title]))
                , JNode.elem "body" (some []) (some []) ]), ?_, rfl, rfl, rfl⟩
      unfold htmlToJson
      rw [hdoc, htmlToJsonDom_skeleton]
  | some l =>
      by_cases hl0 : l = ""
      · subst hl0
        have hdoc : parseDocument (jsonToHtml (createHtmlDocument title ⟨some "", C, V⟩))
            = [htmlRaw [] C V title] := by
          have hser := serialize_emptyLang title C V
          have hlen : 8 ≤ (jsonToHtml (createHtmlDocument title ⟨some "", C, V⟩)).data.length := by
            rw [hser, List.length_append, docSuffix, List.length_append,
              show (("<html>").data).length = 6 from rfl,
              show (("<head>").data).length = 6 from rfl]
            omega
          rw [hser] at hlen
          unfold parseDocument
          rw [hser]
          rw [show (("<html>").data ++ docSuffix C V title).length + 1
              = (((("<html>").data ++ docSuffix C V title).length - 8 + 8) + 1) from by omega]
          rw [psOpenHtmlNoLang]
          exact parse_trace_suffix _ [] C V title hC hV hT
        refine ⟨JNode.elem "html" (some [])
          (some [ JNode.elem "head" (some [])
                    (some (nodesToJson [metaCharsetRaw C, metaViewportRaw V, titleRaw title]))
                , JNode.elem "body" (some []) (some []) ]), ?_, rfl, rfl, rfl⟩
        unfold htmlToJson
        rw [hdoc, htmlToJsonDom_skeleton]
      · have hdoc := parseDocument_lang title C V l hC hV hT
          (serialize_lang title C V l hl0) (hL l rfl)
        refine ⟨JNode.elem "html" (some [("lang", l)])
          (some [ JNode.elem "head" (some [])
                    (some (nodesToJson [metaCharsetRaw C, metaViewportRaw V, titleRaw title]))
                , JNode.elem "body" (some []) (some []) ]), ?_, rfl, ?_, rfl⟩
        · unfold htmlToJson
          rw [hdoc, htmlToJsonDom_skeleton]
        · simp [createHtmlDocument, JNode.attribsOf, hl0]

/-- C3 witness: a concrete benign document round-trips with preserved
root name, attribs and top-level child count. -/
theorem claim3_witness :
    ('<' ∉ ("Round Trip" : String).data) ∧
    (∃ t', htmlToJson (jsonToHtml (createHtmlDocument "Round Trip"
        ⟨some "en", "utf-8", "width=device-width"⟩)) = some t' ∧
      t'.nameOf = (createHtmlDocument "Round Trip"
        ⟨some "en", "utf-8", "width=device-width"⟩).nameOf ∧
      t'.attribsOf = (createHtmlDocument "Round Trip"
        ⟨some "en", "utf-8", "width=device-width"⟩).attribsOf ∧
      (t'.childrenOf).map List.length
        = ((createHtmlDocument "Round Trip"
            ⟨some "en", "utf-8", "width=device-width"⟩).childrenOf).map List.length) :=
  ⟨by decide, claim3_roundtrip "Round Trip" ⟨some "en", "utf-8", "width=device-width"⟩
    (by decide) (by decide) (by decide) (fun l h => by cases h; decide)⟩

end Html
